import Mathlib

/-!
Verification of the rendering core of a minimal document viewer: a markup tree
builder, a stylesheet parser with a cascade resolver, and a line-breaking
layout engine.  The definitions below are shallow embeddings of the source
functions; strings are modelled as lists of characters, Python dictionaries as
association lists with in-place update, Python floats as exact rationals, and
Python exceptions as an `Except` monad.
-/

set_option autoImplicit false

/-- Characters of a string literal, the representation used for all text in
the embedding. -/
def lc (s : String) : List Char := s.data

/-- Left brace character (written by code so that no brace appears in a
string literal). -/
def lbrace : Char := Char.ofNat 123

/-- Right brace character. -/
def rbrace : Char := Char.ofNat 125

/-- Python exception kinds that the embedded code can raise. -/
inductive PErr where
  | assertionError
  | valueError
  | keyError
  | indexError
  | noRootError
  deriving Repr, DecidableEq

/-! ### Python dictionaries as association lists

Python dicts preserve insertion order: writing an existing key updates the
value in place, writing a new key appends it at the end. -/

/-- First value bound to a key in an association list (Python `d[k]` /
`d.get(k)` lookup). -/
def dlookup {α β : Type} [DecidableEq α] : List (α × β) → α → Option β
  | [], _ => none
  | (k, v) :: rest, a => if k = a then some v else dlookup rest a

/-- Python dictionary write `d[k] = v`: update the existing entry in place,
or append a new entry at the end. -/
def dupdate {α β : Type} [DecidableEq α] : List (α × β) → α → β → List (α × β)
  | [], k, v => [(k, v)]
  | (k', v') :: rest, k, v =>
      if k' = k then (k, v) :: rest else (k', v') :: dupdate rest k v

/-- A sequence of dictionary writes, first to last. -/
def dwrites {α β : Type} [DecidableEq α] (w : List (α × β)) (m : List (α × β)) :
    List (α × β) :=
  w.foldl (fun m kv => dupdate m kv.1 kv.2) m

@[simp] theorem dlookup_dupdate {α β : Type} [DecidableEq α]
    (m : List (α × β)) (k : α) (v : β) (a : α) :
    dlookup (dupdate m k v) a = if k = a then some v else dlookup m a := by
  induction m with
  | nil => simp [dupdate, dlookup]
  | cons kv rest ih =>
    obtain ⟨k', v'⟩ := kv
    by_cases h1 : k' = k
    · subst h1
      by_cases h2 : k' = a <;> simp [dupdate, dlookup, h2]
    · by_cases h2 : k' = a
      · subst h2
        simp [dupdate, dlookup, h1, Ne.symm h1]
      · simp [dupdate, dlookup, h1, h2, ih]

/-- Keys of an association list. -/
def dkeys {α β : Type} (m : List (α × β)) : List α := m.map Prod.fst

@[simp] theorem dkeys_nil {α β : Type} : dkeys ([] : List (α × β)) = [] := rfl

@[simp] theorem dkeys_cons {α β : Type} (kv : α × β) (m : List (α × β)) :
    dkeys (kv :: m) = kv.1 :: dkeys m := rfl

theorem mem_dkeys_dupdate {α β : Type} [DecidableEq α]
    (m : List (α × β)) (k : α) (v : β) : k ∈ dkeys (dupdate m k v) := by
  induction m with
  | nil => simp [dupdate]
  | cons kv rest ih =>
    obtain ⟨k', v'⟩ := kv
    by_cases h1 : k' = k <;> simp [dupdate, h1]
    right; exact ih

theorem mem_dkeys_dupdate_of_mem {α β : Type} [DecidableEq α]
    (m : List (α × β)) (k a : α) (v : β) (h : a ∈ dkeys m) :
    a ∈ dkeys (dupdate m k v) := by
  induction m with
  | nil => simp at h
  | cons kv rest ih =>
    obtain ⟨k', v'⟩ := kv
    simp only [dkeys_cons, List.mem_cons] at h
    by_cases h1 : k' = k
    · subst h1
      rcases h with h | h
      · simp [dupdate, h]
      · simp [dupdate]; right; exact h
    · rcases h with h | h
      · simp [dupdate, h1, h]
      · simp only [dupdate, h1, if_false, dkeys_cons, List.mem_cons]
        right; exact ih h

/-- Updating a key with the value it already has is the identity. -/
theorem dupdate_self {α β : Type} [DecidableEq α]
    (m : List (α × β)) (k : α) (v : β) (h : dlookup m k = some v) :
    dupdate m k v = m := by
  induction m with
  | nil => simp [dlookup] at h
  | cons kv rest ih =>
    obtain ⟨k', v'⟩ := kv
    by_cases h1 : k' = k
    · subst h1
      simp [dlookup] at h
      simp [dupdate, h]
    · simp [dlookup, h1] at h
      simp [dupdate, h1, ih h]

/-- Two writes to the same key collapse to the last one. -/
theorem dupdate_dupdate {α β : Type} [DecidableEq α]
    (m : List (α × β)) (k : α) (v v' : β) :
    dupdate (dupdate m k v) k v' = dupdate m k v' := by
  induction m with
  | nil => simp [dupdate]
  | cons kv rest ih =>
    obtain ⟨k', w⟩ := kv
    by_cases h1 : k' = k
    · subst h1; simp [dupdate]
    · simp [dupdate, h1, ih]

/-- Writes to different keys commute when the first key is already present
(so neither order appends it). -/
theorem dupdate_comm {α β : Type} [DecidableEq α]
    (m : List (α × β)) (k k' : α) (v v' : β) (hk : k ∈ dkeys m) (h : k ≠ k') :
    dupdate (dupdate m k v) k' v' = dupdate (dupdate m k' v') k v := by
  induction m with
  | nil => simp at hk
  | cons kv rest ih =>
    obtain ⟨a, b⟩ := kv
    simp only [dkeys_cons, List.mem_cons] at hk
    by_cases h1 : a = k
    · subst h1
      simp [dupdate, h, Ne.symm h]
    · have hk' : k ∈ dkeys rest := by
        rcases hk with hk | hk
        · exact absurd hk.symm h1
        · exact hk
      by_cases h2 : a = k'
      · subst h2
        simp [dupdate, h, Ne.symm h, h1]
      · simp [dupdate, h1, h2, ih hk']

/-- Last value written to a key by a write sequence. -/
def lastWrite {α β : Type} [DecidableEq α] (w : List (α × β)) (k : α) : Option β :=
  dlookup w.reverse k

@[simp] theorem dwrites_nil {α β : Type} [DecidableEq α] (m : List (α × β)) :
    dwrites [] m = m := rfl

@[simp] theorem dwrites_cons {α β : Type} [DecidableEq α]
    (kv : α × β) (w : List (α × β)) (m : List (α × β)) :
    dwrites (kv :: w) m = dwrites w (dupdate m kv.1 kv.2) := rfl

theorem dwrites_append {α β : Type} [DecidableEq α]
    (w1 w2 : List (α × β)) (m : List (α × β)) :
    dwrites (w1 ++ w2) m = dwrites w2 (dwrites w1 m) := by
  simp [dwrites, List.foldl_append]

theorem dlookup_append_single {α β : Type} [DecidableEq α]
    (l : List (α × β)) (kv : α × β) (k : α) :
    dlookup (l ++ [kv]) k =
      match dlookup l k with
      | some v => some v
      | none => if kv.1 = k then some kv.2 else none := by
  induction l with
  | nil => simp [dlookup]
  | cons x xs ih =>
    by_cases h : x.1 = k
    · obtain ⟨a, b⟩ := x
      simp only at h
      simp [dlookup, h]
    · obtain ⟨a, b⟩ := x
      simp only at h
      simp only [List.cons_append, dlookup, h, if_false]
      exact ih

theorem lastWrite_cons {α β : Type} [DecidableEq α]
    (kv : α × β) (w : List (α × β)) (k : α) :
    lastWrite (kv :: w) k =
      match lastWrite w k with
      | some v => some v
      | none => if kv.1 = k then some kv.2 else none := by
  unfold lastWrite
  rw [List.reverse_cons, dlookup_append_single]

theorem dlookup_dwrites {α β : Type} [DecidableEq α]
    (w : List (α × β)) (m : List (α × β)) (k : α) :
    dlookup (dwrites w m) k =
      match lastWrite w k with
      | some v => some v
      | none => dlookup m k := by
  induction w generalizing m with
  | nil => simp [lastWrite, dlookup]
  | cons kv rest ih =>
    rw [dwrites_cons, ih, lastWrite_cons]
    rcases h : lastWrite rest k with _ | v
    · by_cases h2 : kv.1 = k <;> simp [h2]
    · simp

theorem mem_dkeys_dwrites_of_mem {α β : Type} [DecidableEq α]
    (w : List (α × β)) (m : List (α × β)) (k : α) (h : k ∈ dkeys m) :
    k ∈ dkeys (dwrites w m) := by
  induction w generalizing m with
  | nil => exact h
  | cons kv rest ih =>
    rw [dwrites_cons]
    exact ih _ (mem_dkeys_dupdate_of_mem _ _ _ _ h)

/-- Re-running a write sequence on maps that differ only in the value stored
at one key leaves no trace of the difference, provided the sequence writes
that key. -/
theorem dwrites_dupdate_of_lastWrite {α β : Type} [DecidableEq α]
    (w : List (α × β)) (m : List (α × β)) (k : α) (v : β)
    (hk : k ∈ dkeys m) (hw : lastWrite w k ≠ none) :
    dwrites w (dupdate m k v) = dwrites w m := by
  induction w generalizing m with
  | nil =>
    rw [lastWrite] at hw
    simp [dlookup] at hw
  | cons kv rest ih =>
    obtain ⟨k', v'⟩ := kv
    by_cases h1 : k' = k
    · subst h1
      simp only [dwrites_cons, dupdate_dupdate]
    · rw [lastWrite_cons] at hw
      simp only [dwrites_cons]
      rcases h2 : lastWrite rest k with _ | u
      · simp [h2, h1] at hw
      · rw [dupdate_comm m k k' v v' hk (fun he => h1 he.symm),
          ih (dupdate m k' v') (mem_dkeys_dupdate_of_mem _ _ _ _ hk) (by simp [h2])]

/-- Applying the same write sequence twice is the same as applying it once
(list equality, matching Python's in-place dictionary updates). -/
theorem dwrites_dwrites {α β : Type} [DecidableEq α]
    (w : List (α × β)) (m : List (α × β)) :
    dwrites w (dwrites w m) = dwrites w m := by
  induction w generalizing m with
  | nil => rfl
  | cons kv rest ih =>
    obtain ⟨k, v⟩ := kv
    simp only [dwrites_cons]
    rcases h : lastWrite rest k with _ | u
    · have hv : dlookup (dwrites rest (dupdate m k v)) k = some v := by
        rw [dlookup_dwrites, h]
        simp
      rw [dupdate_self _ _ _ hv, ih]
    · rw [dwrites_dupdate_of_lastWrite rest _ k v
        (mem_dkeys_dwrites_of_mem _ _ _ (mem_dkeys_dupdate _ _ _)) (by simp [h]), ih]

/-! ### Decimal numerals: a model of Python `float(...)` and `str(float)`

Python floats are modelled as exact rationals.  Every value that reaches
`float` arithmetic in the embedded code is a finite decimal, for which the
exact-rational model agrees with IEEE semantics and with `repr`'s
shortest-roundtrip printing. -/

/-- Numeric value of a digit character. -/
def digitVal (c : Char) : ℕ := c.toNat - 48

/-- Character for a digit. -/
def digChar (d : ℕ) : Char := Char.ofNat (48 + d)

/-- Value of a big-endian digit string. -/
def natValC (l : List Char) : ℕ := l.foldl (fun a c => 10 * a + digitVal c) 0

theorem foldl_digits (l : List Char) (a : ℕ) :
    l.foldl (fun a c => 10 * a + digitVal c) a = a * 10 ^ l.length + natValC l := by
  induction l generalizing a with
  | nil => simp [natValC]
  | cons c rest ih =>
    show rest.foldl _ (10 * a + digitVal c) = _
    rw [ih]
    have hc : natValC (c :: rest) = digitVal c * 10 ^ rest.length + natValC rest := by
      show rest.foldl _ (10 * 0 + digitVal c) = _
      rw [ih (10 * 0 + digitVal c)]
      norm_num
    rw [hc, List.length_cons]
    ring

theorem natValC_append_single (l : List Char) (c : Char) :
    natValC (l ++ [c]) = 10 * natValC l + digitVal c := by
  unfold natValC
  rw [List.foldl_append]
  show 10 * (List.foldl _ 0 l) + digitVal c = _
  rfl

theorem natValC_replicate_zero_append (z : ℕ) (l : List Char) :
    natValC (List.replicate z (digChar 0) ++ l) = natValC l := by
  induction z with
  | zero => simp
  | succ n ih =>
    show natValC (digChar 0 :: (List.replicate n (digChar 0) ++ l)) = natValC l
    unfold natValC at ih ⊢
    show (List.replicate n (digChar 0) ++ l).foldl _ (10 * 0 + digitVal (digChar 0)) = _
    have : 10 * 0 + digitVal (digChar 0) = 0 := by decide
    rw [this]
    exact ih

/-- Little-endian decimal digits of a natural number. -/
def natDigitsRev (n : ℕ) : List ℕ :=
  if h : n = 0 then [] else (n % 10) :: natDigitsRev (n / 10)
  termination_by n
  decreasing_by exact Nat.div_lt_self (Nat.pos_of_ne_zero h) (by norm_num)

/-- Decimal digit characters of a natural number (`str(n)` for `n : ℕ`). -/
def natDecChars (n : ℕ) : List Char :=
  if n = 0 then [digChar 0] else ((natDigitsRev n).map digChar).reverse

theorem digitVal_digChar (d : ℕ) (h : d < 10) : digitVal (digChar d) = d := by
  interval_cases d <;> decide

theorem isDigit_digChar (d : ℕ) (h : d < 10) : (digChar d).isDigit = true := by
  interval_cases d <;> decide

theorem natDigitsRev_lt (n : ℕ) : ∀ d ∈ natDigitsRev n, d < 10 := by
  induction n using Nat.strong_induction_on with
  | _ n ih =>
    intro d hd
    rw [natDigitsRev] at hd
    by_cases h : n = 0
    · simp [h] at hd
    · simp only [h, dite_false, List.mem_cons] at hd
      rcases hd with hd | hd
      · subst hd; exact Nat.mod_lt _ (by norm_num)
      · exact ih (n / 10) (Nat.div_lt_self (Nat.pos_of_ne_zero h) (by norm_num)) d hd

theorem natValC_rev_digits (n : ℕ) :
    natValC ((natDigitsRev n).map digChar).reverse = n := by
  induction n using Nat.strong_induction_on with
  | _ n ih =>
    rw [natDigitsRev]
    by_cases h : n = 0
    · simp [h, natValC]
    · simp only [h, dite_false, List.map_cons, List.reverse_cons]
      rw [natValC_append_single,
        ih (n / 10) (Nat.div_lt_self (Nat.pos_of_ne_zero h) (by norm_num)),
        digitVal_digChar _ (Nat.mod_lt _ (by norm_num))]
      exact Nat.div_add_mod n 10

theorem natValC_natDecChars (n : ℕ) : natValC (natDecChars n) = n := by
  unfold natDecChars
  by_cases h : n = 0
  · simp [h]; decide
  · simp only [h, if_false]
    exact natValC_rev_digits n

theorem natDigitsRev_length_le (k : ℕ) : ∀ n : ℕ, n < 10 ^ k → (natDigitsRev n).length ≤ k := by
  induction k with
  | zero =>
    intro n h
    interval_cases n
    rw [natDigitsRev]; simp
  | succ k ih =>
    intro n h
    rw [natDigitsRev]
    by_cases h0 : n = 0
    · simp [h0]
    · simp only [h0, dite_false, List.length_cons]
      have : n / 10 < 10 ^ k := by
        rw [Nat.div_lt_iff_lt_mul (by norm_num)]
        calc n < 10 ^ (k + 1) := h
        _ = 10 ^ k * 10 := by ring
      exact Nat.succ_le_succ (ih _ this)

theorem natDecChars_length_le (n k : ℕ) (hk : 1 ≤ k) (h : n < 10 ^ k) :
    (natDecChars n).length ≤ k := by
  unfold natDecChars
  by_cases h0 : n = 0
  · simpa [h0] using hk
  · simp only [h0, if_false, List.length_reverse, List.length_map]
    exact natDigitsRev_length_le k n h

theorem natDecChars_all_digit (n : ℕ) : ∀ c ∈ natDecChars n, c.isDigit = true := by
  unfold natDecChars
  by_cases h0 : n = 0
  · simp [h0]; decide
  · simp only [h0, if_false, List.mem_reverse, List.mem_map]
    rintro c ⟨d, hd, rfl⟩
    exact isDigit_digChar d (natDigitsRev_lt n d hd)

theorem natDecChars_ne_nil (n : ℕ) : natDecChars n ≠ [] := by
  unfold natDecChars
  by_cases h0 : n = 0
  · simp [h0]
  · simp only [h0, if_false, ne_eq, List.reverse_eq_nil_iff, List.map_eq_nil_iff]
    rw [natDigitsRev]
    simp [h0]

theorem takeWhile_all_append (p : Char → Bool) (l r : List Char)
    (h : ∀ c ∈ l, p c = true) : (l ++ r).takeWhile p = l ++ r.takeWhile p := by
  induction l with
  | nil => simp
  | cons c rest ih =>
    simp [List.takeWhile_cons, h c (List.mem_cons_self c rest),
      ih (fun x hx => h x (List.mem_cons_of_mem c hx))]

theorem dropWhile_all_append (p : Char → Bool) (l r : List Char)
    (h : ∀ c ∈ l, p c = true) : (l ++ r).dropWhile p = r.dropWhile p := by
  induction l with
  | nil => simp
  | cons c rest ih =>
    simp [List.dropWhile_cons, h c (List.mem_cons_self c rest),
      ih (fun x hx => h x (List.mem_cons_of_mem c hx))]

/-- Multiplicity of `p` in `n` (for `2 ≤ p`, `n ≠ 0`). -/
def padN (p : ℕ) (n : ℕ) : ℕ :=
  if h : 2 ≤ p ∧ n ≠ 0 ∧ p ∣ n then 1 + padN p (n / p) else 0
  termination_by n
  decreasing_by exact Nat.div_lt_self (Nat.pos_of_ne_zero h.2.1) h.1

theorem padN_pow_dvd (p n : ℕ) : p ^ padN p n ∣ n := by
  induction n using Nat.strong_induction_on with
  | _ n ih =>
    rw [padN]
    by_cases h : 2 ≤ p ∧ n ≠ 0 ∧ p ∣ n
    · rw [dif_pos h]
      obtain ⟨hp, hn, hd⟩ := h
      have hlt : n / p < n := Nat.div_lt_self (Nat.pos_of_ne_zero hn) hp
      obtain ⟨c, hc⟩ := ih (n / p) hlt
      rw [pow_add, pow_one]
      refine ⟨c, ?_⟩
      have hh : n = p * (p ^ padN p (n / p) * c) := by
        rw [← hc]
        exact (Nat.mul_div_cancel' hd).symm
      conv_lhs => rw [hh]
      ring
    · rw [dif_neg h]
      simp

theorem padN_not_dvd (p n : ℕ) (hp : 2 ≤ p) (hn : n ≠ 0) :
    ¬ p ∣ (n / p ^ padN p n) := by
  induction n using Nat.strong_induction_on with
  | _ n ih =>
    rw [padN]
    by_cases h : 2 ≤ p ∧ n ≠ 0 ∧ p ∣ n
    · rw [dif_pos h]
      obtain ⟨_, _, hd⟩ := h
      have hlt : n / p < n := Nat.div_lt_self (Nat.pos_of_ne_zero hn) hp
      have hq : n / p ≠ 0 := by
        intro h0
        have hcc := Nat.div_mul_cancel hd
        rw [h0, zero_mul] at hcc
        exact hn hcc.symm
      have := ih (n / p) hlt hq
      rw [pow_add, pow_one, ← Nat.div_div_eq_div_mul]
      exact this
    · rw [dif_neg h]
      simp only [pow_zero, Nat.div_one]
      intro hd
      exact h ⟨hp, hn, hd⟩

/-- A number dividing some power of 10 divides a power of 10 with exponent
at most itself. -/
theorem dvd_ten_pow_small (d : ℕ) (hd : d ≠ 0) (j : ℕ) (h : d ∣ 10 ^ j) :
    ∃ k, k ≤ d ∧ d ∣ 10 ^ k := by
  set a := padN 2 d with ha
  set b := padN 5 d with hb
  have h2 : 2 ^ a ∣ d := padN_pow_dvd 2 d
  have h5 : 5 ^ b ∣ d := padN_pow_dvd 5 d
  have hcop : Nat.Coprime (2 ^ a) (5 ^ b) := Nat.Coprime.pow a b (by norm_num)
  have h25 : 2 ^ a * 5 ^ b ∣ d := hcop.mul_dvd_of_dvd_of_dvd h2 h5
  obtain ⟨e, he⟩ := h25
  have he2 : ¬ 2 ∣ e := by
    intro hdvd
    have hx : 2 ∣ d / 2 ^ a := by
      have hdiv : d / 2 ^ a = 5 ^ b * e := by
        rw [he, mul_assoc, mul_comm (2 ^ a : ℕ) _, Nat.mul_div_cancel _ (by positivity)]
      rw [hdiv]
      exact Dvd.dvd.mul_left hdvd _
    exact padN_not_dvd 2 d (by norm_num) hd hx
  have he5 : ¬ 5 ∣ e := by
    intro hdvd
    have hx : 5 ∣ d / 5 ^ b := by
      have hdiv : d / 5 ^ b = 2 ^ a * e := by
        rw [he, mul_comm ((2:ℕ) ^ a) ((5:ℕ) ^ b), mul_assoc,
          Nat.mul_div_cancel_left _ (by positivity)]
      rw [hdiv]
      exact Dvd.dvd.mul_left hdvd _
    exact padN_not_dvd 5 d (by norm_num) hd hx
  have c2 : Nat.Coprime 2 e := (Nat.Prime.coprime_iff_not_dvd Nat.prime_two).mpr he2
  have c5 : Nat.Coprime 5 e := (Nat.Prime.coprime_iff_not_dvd (by norm_num)).mpr he5
  have hecop : Nat.Coprime e 10 := by
    have h10 : (10 : ℕ) = 2 * 5 := by norm_num
    have hc := Nat.Coprime.mul c2 c5
    rw [← h10] at hc
    exact hc.symm
  have hedvd : e ∣ 10 ^ j := dvd_trans (Dvd.intro_left _ he.symm) h
  have he1 : e = 1 := (Nat.Coprime.pow_right j hecop).eq_one_of_dvd hedvd
  have hd25 : d = 2 ^ a * 5 ^ b := by rw [he, he1, mul_one]
  refine ⟨max a b, ?_, ?_⟩
  · have ha2 : 2 ^ a ≤ d := Nat.le_of_dvd (Nat.pos_of_ne_zero hd) h2
    have hb5 : 5 ^ b ≤ d := Nat.le_of_dvd (Nat.pos_of_ne_zero hd) h5
    have ha' : a ≤ d := le_trans (Nat.le_of_lt (Nat.lt_two_pow a)) ha2
    have hb' : b ≤ d := by
      have hlt : b < 2 ^ b := Nat.lt_two_pow b
      have h2b : (2 : ℕ) ^ b ≤ 5 ^ b := Nat.pow_le_pow_left (by norm_num) b
      omega
    exact max_le ha' hb'
  · have h10 : (10 : ℕ) ^ max a b = 2 ^ max a b * 5 ^ max a b := by
      rw [← Nat.mul_pow]
    rw [h10, hd25]
    exact Nat.mul_dvd_mul (pow_dvd_pow 2 (le_max_left a b)) (pow_dvd_pow 5 (le_max_right a b))

/-- Magnitude part of Python `float(s)` on a sign-stripped string: an optional
integer part, an optional single dot, an optional fraction part, at least one
digit overall. -/
def pyFloatMag (s1 : List Char) : Except PErr ℚ :=
  let ip := s1.takeWhile Char.isDigit
  let rest := s1.dropWhile Char.isDigit
  match rest with
  | [] => if ip.isEmpty then .error .valueError else .ok (natValC ip : ℚ)
  | c :: r =>
      if c = '.' then
        if r.all Char.isDigit && !(ip.isEmpty && r.isEmpty) then
          .ok ((natValC ip : ℚ) + (natValC r : ℚ) / (10 : ℚ) ^ r.length)
        else .error .valueError
      else .error .valueError

/-- Model of Python `float(s)` on the decimal fragment the embedded code
feeds it; malformed input raises `ValueError`. -/
def pyFloat (s : List Char) : Except PErr ℚ :=
  match s with
  | c :: r =>
      if c = '-' then
        match pyFloatMag r with
        | .ok q => .ok (-q)
        | .error e => .error e
      else pyFloatMag s
  | [] => pyFloatMag []

/-- Smallest exponent `k ≤ d` with `d ∣ 10 ^ k`, when one exists. -/
def minK (d : ℕ) : ℕ :=
  (((List.range (d + 1)).find? (fun k => decide (d ∣ 10 ^ k)))).getD 0

theorem minK_dvd (d : ℕ) (hd : d ≠ 0) (j : ℕ) (h : d ∣ 10 ^ j) :
    d ∣ 10 ^ minK d := by
  obtain ⟨k, hk, hdk⟩ := dvd_ten_pow_small d hd j h
  have hmem : k ∈ List.range (d + 1) := List.mem_range.mpr (Nat.lt_succ_of_le hk)
  have hsome : ((List.range (d + 1)).find? (fun k => decide (d ∣ 10 ^ k))).isSome := by
    rw [List.find?_isSome]
    exact ⟨k, hmem, by simpa using hdk⟩
  obtain ⟨k', hk'⟩ := Option.isSome_iff_exists.mp hsome
  have := List.find?_some hk'
  unfold minK
  rw [hk']
  simpa using this

/-- Digit characters of `str(float)` for a nonnegative exact decimal: the
digits of `m` with a decimal point `k` places from the right (`".0"`
appended for integers), where the value is `m / 10 ^ k`. -/
def decRender (m k : ℕ) : List Char :=
  if k = 0 then natDecChars m ++ ['.', '0']
  else
    natDecChars (m / 10 ^ k) ++
      '.' :: (List.replicate (k - (natDecChars (m % 10 ^ k)).length) (digChar 0) ++
        natDecChars (m % 10 ^ k))

/-- `str(float)` for a nonnegative exact decimal. -/
def pyFloatCore (q : ℚ) : List Char :=
  let d := q.den
  let k := minK d
  if 10 ^ k % d = 0 then decRender (q.num.toNat * (10 ^ k / d)) k
  else ['?']

/-- Model of Python `str(float)` on exact decimals (the only values the
embedded code prints): minimal exact decimal rendering, `".0"` for whole
numbers, leading `-` for negatives.  Values whose denominator divides no
power of ten cannot arise from float arithmetic; they render as a dummy. -/
def pyFloatStr (q : ℚ) : List Char :=
  if q < 0 then '-' :: pyFloatCore (-q) else pyFloatCore q

theorem natDecChars_head_digit (n : ℕ) :
    ∃ c r, natDecChars n = c :: r ∧ c.isDigit = true := by
  rcases h : natDecChars n with _ | ⟨c, r⟩
  · exact absurd h (natDecChars_ne_nil n)
  · exact ⟨c, r, rfl, natDecChars_all_digit n c (by rw [h]; simp)⟩

theorem decRender_head_digit (m k : ℕ) :
    ∃ c r, decRender m k = c :: r ∧ c.isDigit = true := by
  unfold decRender
  by_cases hk : k = 0
  · obtain ⟨c, r, hc, hd⟩ := natDecChars_head_digit m
    exact ⟨c, r ++ ['.', '0'], by simp [hk, hc], hd⟩
  · obtain ⟨c, r, hc, hd⟩ := natDecChars_head_digit (m / 10 ^ k)
    refine ⟨c, r ++ '.' :: (List.replicate (k - (natDecChars (m % 10 ^ k)).length)
      (digChar 0) ++ natDecChars (m % 10 ^ k)), by simp [hk, hc], hd⟩

theorem pyFloatMag_decRender (m k : ℕ) :
    pyFloatMag (decRender m k) = .ok ((m : ℚ) / 10 ^ k) := by
  unfold decRender pyFloatMag
  by_cases hk : k = 0
  · subst hk
    rw [if_pos rfl]
    rw [takeWhile_all_append _ _ _ (natDecChars_all_digit m),
      dropWhile_all_append _ _ _ (natDecChars_all_digit m)]
    have h1 : List.takeWhile Char.isDigit ['.', '0'] = [] := by decide
    have h2 : List.dropWhile Char.isDigit ['.', '0'] = ['.', '0'] := by decide
    rw [h1, h2]
    simp only [List.append_nil]
    rw [if_pos trivial]
    have h3 : ((['0'] : List Char).all Char.isDigit &&
        !((natDecChars m).isEmpty && (['0'] : List Char).isEmpty)) = true := by
      have : (natDecChars m).isEmpty = false := by
        rcases natDecChars_head_digit m with ⟨c, r, hc, _⟩
        rw [hc]; rfl
      simp [this]
    rw [if_pos h3]
    congr 1
    rw [natValC_natDecChars]
    have : natValC ['0'] = 0 := by decide
    rw [this]
    simp
  · rw [if_neg hk]
    set frac := List.replicate (k - (natDecChars (m % 10 ^ k)).length) (digChar 0) ++
      natDecChars (m % 10 ^ k) with hfrac
    rw [takeWhile_all_append _ _ _ (natDecChars_all_digit (m / 10 ^ k)),
      dropWhile_all_append _ _ _ (natDecChars_all_digit (m / 10 ^ k))]
    have h1 : List.takeWhile Char.isDigit ('.' :: frac) = [] := by
      simp [List.takeWhile_cons]
    have h2 : List.dropWhile Char.isDigit ('.' :: frac) = '.' :: frac := by
      simp [List.dropWhile_cons]
    rw [h1, h2]
    simp only [List.append_nil]
    rw [if_pos trivial]
    have hfd : frac.all Char.isDigit = true := by
      rw [hfrac, List.all_append, Bool.and_eq_true]
      constructor
      · rw [List.all_eq_true]
        intro c hc
        rw [List.mem_replicate] at hc
        rw [hc.2]
        decide
      · rw [List.all_eq_true]
        exact natDecChars_all_digit _
    have hne : (natDecChars (m / 10 ^ k)).isEmpty = false := by
      rcases natDecChars_head_digit (m / 10 ^ k) with ⟨c, r, hc, _⟩
      rw [hc]; rfl
    rw [if_pos (by simp [hfd, hne])]
    congr 1
    have hlen : frac.length = k := by
      rw [hfrac, List.length_append, List.length_replicate]
      have hlt : m % 10 ^ k < 10 ^ k := Nat.mod_lt _ (by positivity)
      have hle : (natDecChars (m % 10 ^ k)).length ≤ k :=
        natDecChars_length_le _ _ (Nat.one_le_iff_ne_zero.mpr hk) hlt
      omega
    have hval : natValC frac = m % 10 ^ k := by
      rw [hfrac, natValC_replicate_zero_append, natValC_natDecChars]
    rw [hval, hlen, natValC_natDecChars]
    have h := congrArg (fun n : ℕ => (n : ℚ)) (Nat.div_add_mod m (10 ^ k))
    push_cast at h
    have hpow : ((10 : ℚ) ^ k) ≠ 0 := by positivity
    field_simp
    linarith [h]

theorem pyFloatMag_pyFloatCore (q : ℚ) (hdvd : q.den ∣ 10 ^ minK q.den) :
    pyFloatMag (pyFloatCore q) = .ok ((q.num.toNat : ℚ) * (10 ^ minK q.den / q.den : ℕ) / 10 ^ minK q.den) := by
  unfold pyFloatCore
  have hmod : 10 ^ minK q.den % q.den = 0 := Nat.dvd_iff_mod_eq_zero.mp hdvd
  rw [if_pos hmod, pyFloatMag_decRender]
  congr 1
  push_cast
  ring

/-- A rational that float arithmetic can produce exactly: its denominator
divides a power of ten. -/
def GoodQ (q : ℚ) : Prop := ∃ j, (q.den : ℕ) ∣ 10 ^ j

theorem pyFloatCore_val (r : ℚ) (h0 : 0 ≤ r) (hdvd : r.den ∣ 10 ^ minK r.den) :
    pyFloatMag (pyFloatCore r) = .ok r := by
  rw [pyFloatMag_pyFloatCore r hdvd]
  congr 1
  have hd0 : ((r.den : ℕ) : ℚ) ≠ 0 := by
    exact_mod_cast r.den_nz
  have hp : ((10 : ℚ) ^ minK r.den) ≠ 0 := by positivity
  have hcast : ((10 ^ minK r.den / r.den : ℕ) : ℚ) = (10 : ℚ) ^ minK r.den / (r.den : ℚ) := by
    rw [Nat.cast_div hdvd hd0]
    push_cast
    ring
  have hnum : (r.num.toNat : ℚ) = (r.num : ℚ) := by
    exact_mod_cast congrArg (fun z : ℤ => (z : ℚ))
      (Int.toNat_of_nonneg (Rat.num_nonneg.mpr h0))
  rw [hcast, hnum]
  have hmain : (r.num : ℚ) * ((10 : ℚ) ^ minK r.den / ↑r.den) / (10 : ℚ) ^ minK r.den =
      (r.num : ℚ) / ↑r.den := by
    field_simp
    ring
  rw [hmain, Rat.num_div_den]

theorem pyFloat_pyFloatStr (q : ℚ) (h : GoodQ q) : pyFloat (pyFloatStr q) = .ok q := by
  obtain ⟨j, hj⟩ := h
  unfold pyFloatStr
  by_cases hq : q < 0
  · rw [if_pos hq]
    have hden : (-q).den = q.den := Rat.den_neg_eq_den q
    have hdvd : (-q).den ∣ 10 ^ minK (-q).den := by
      rw [hden]
      exact minK_dvd q.den q.den_nz j hj
    have h0 : (0 : ℚ) ≤ -q := by linarith
    have hmag := pyFloatCore_val (-q) h0 hdvd
    show pyFloat ('-' :: pyFloatCore (-q)) = .ok q
    simp only [pyFloat]
    rw [if_pos trivial, hmag]
    norm_num
  · rw [if_neg hq]
    have h0 : (0 : ℚ) ≤ q := not_lt.mp hq
    have hdvd : q.den ∣ 10 ^ minK q.den := minK_dvd q.den q.den_nz j hj
    have hmag := pyFloatCore_val q h0 hdvd
    have hhead : ∃ c r, pyFloatCore q = c :: r ∧ c ≠ '-' := by
      unfold pyFloatCore
      have hmod : 10 ^ minK q.den % q.den = 0 := Nat.dvd_iff_mod_eq_zero.mp hdvd
      rw [if_pos hmod]
      obtain ⟨c, r, hc, hd⟩ := decRender_head_digit _ _
      refine ⟨c, r, hc, ?_⟩
      intro he
      rw [he] at hd
      exact absurd hd (by decide)
    obtain ⟨c, r, hc, hne⟩ := hhead
    rw [hc]
    simp only [pyFloat]
    rw [if_neg hne, ← hc, hmag]

theorem den_dvd_of_eq_div (q : ℚ) (n : ℤ) (D : ℕ) (h : q = (n : ℚ) / (D : ℚ)) :
    (q.den : ℕ) ∣ D := by
  have hd := Rat.den_dvd n (D : ℤ)
  rw [Rat.divInt_eq_div] at hd
  have hc : ((D : ℤ) : ℚ) = (D : ℚ) := by push_cast; ring
  rw [hc, ← h] at hd
  exact_mod_cast hd

theorem goodQ_neg (q : ℚ) (h : GoodQ q) : GoodQ (-q) := by
  obtain ⟨j, hj⟩ := h
  exact ⟨j, by rw [Rat.den_neg_eq_den]; exact hj⟩

theorem pyFloatMag_goodQ (s : List Char) (q : ℚ) (h : pyFloatMag s = .ok q) :
    GoodQ q := by
  simp only [pyFloatMag] at h
  split at h
  · split at h
    · exact absurd h (by simp)
    · injection h with h
      refine ⟨0, ?_⟩
      rw [← h]
      simp [Rat.den_natCast]
  · rename_i ch rt heqq
    split at h
    · split at h
      · injection h with h
        refine ⟨rt.length, ?_⟩
        refine den_dvd_of_eq_div q
          ((natValC (s.takeWhile Char.isDigit) : ℤ) * (10 ^ rt.length : ℤ) +
            (natValC rt : ℤ)) (10 ^ rt.length) ?_
        rw [← h]
        have hp : ((10 : ℚ) ^ rt.length) ≠ 0 := by positivity
        push_cast
        field_simp
      · exact absurd h (by simp)
    · exact absurd h (by simp)

theorem pyFloat_goodQ (s : List Char) (q : ℚ) (h : pyFloat s = .ok q) : GoodQ q := by
  simp only [pyFloat] at h
  split at h
  · rename_i c r
    split at h
    · rcases hm : pyFloatMag r with e | p <;> rw [hm] at h
      · exact absurd h (by simp)
      · injection h with h
        rw [← h]
        exact goodQ_neg p (pyFloatMag_goodQ r p hm)
    · exact pyFloatMag_goodQ _ q h
  · exact pyFloatMag_goodQ [] q h

theorem goodQ_div100_mul (p r : ℚ) (hp : GoodQ p) (hr : GoodQ r) :
    GoodQ (p / 100 * r) := by
  obtain ⟨j1, hj1⟩ := hp
  obtain ⟨j2, hj2⟩ := hr
  refine ⟨j1 + 2 + j2, ?_⟩
  have heq : p / 100 * r =
      ((p.num * r.num : ℤ) : ℚ) / ((p.den * 100 * r.den : ℕ) : ℚ) := by
    have hd1 : ((p.den : ℚ)) ≠ 0 := by exact_mod_cast p.den_nz
    have hd2 : ((r.den : ℚ)) ≠ 0 := by exact_mod_cast r.den_nz
    conv_lhs => rw [← Rat.num_div_den p, ← Rat.num_div_den r]
    push_cast
    field_simp
  have hdvd := den_dvd_of_eq_div _ _ _ heq
  refine dvd_trans hdvd ?_
  have h100 : (100 : ℕ) = 10 ^ 2 := by norm_num
  calc p.den * 100 * r.den ∣ 10 ^ j1 * 100 * 10 ^ j2 :=
        Nat.mul_dvd_mul (Nat.mul_dvd_mul hj1 dvd_rfl) hj2
  _ = 10 ^ (j1 + 2 + j2) := by rw [h100, ← pow_add, ← pow_add]

/-! ### The stylesheet parser (`CSSParser` of `css.py`)

The parser state `(s, i)` is modelled by the remaining character list; all
source operations only inspect and advance the current position.  An
`AssertionError` inside `pair`/`literal`/`word` is modelled by an `Option`
result carrying the position at which the failure occurred, matching the
mutated `self.i` that the `except` handler observes. -/

/-- Python `str.lower()`. -/
def pyLower (s : List Char) : List Char := s.map Char.toLower

namespace CSSParser

/-- Extra word characters of `css.py`'s `word` (apostrophe, double quote,
`#`, `-`, `.`, `%`). -/
def wordExtra : List Char := [Char.ofNat 39, Char.ofNat 34, '#', '-', '.', '%']

/-- Characters accepted by `word`. -/
def wordChar (c : Char) : Bool := c.isAlphanum || wordExtra.contains c

/-- `whitespace`: advance past whitespace. -/
def whitespaceFn (s : List Char) : List Char := s.dropWhile Char.isWhitespace

/-- `word`: take a maximal run of word characters; the `assert i > start`
fails (consuming nothing) when the run is empty. -/
def wordFn (s : List Char) : Option (List Char) × List Char :=
  let t := s.takeWhile wordChar
  if t.isEmpty then (none, s) else (some t, s.dropWhile wordChar)

/-- `literal(c)`: consume exactly `c` or fail consuming nothing. -/
def literalFn (c : Char) (s : List Char) : Bool × List Char :=
  match s with
  | c' :: r => if c' = c then (true, r) else (false, c' :: r)
  | [] => (false, [])

/-- `pair`: property word, `:`, value word; on failure returns the position
reached so far. -/
def pairFn (s : List Char) : Option (List Char × List Char) × List Char :=
  match wordFn s with
  | (none, r) => (none, r)
  | (some prop, r) =>
    let r1 := whitespaceFn r
    match literalFn ':' r1 with
    | (false, r2) => (none, r2)
    | (true, r2) =>
      let r3 := whitespaceFn r2
      match wordFn r3 with
      | (none, r4) => (none, r4)
      | (some val, r4) => (some (pyLower prop, val), r4)

/-- `ignore_until(chars)`: scan forward to the first character in `chars`,
reporting it, or to the end of input. -/
def ignoreUntil (chars : List Char) : List Char → Option Char × List Char
  | [] => (none, [])
  | c :: r => if chars.contains c then (some c, c :: r) else ignoreUntil chars r

theorem whitespaceFn_le (s : List Char) : (whitespaceFn s).length ≤ s.length := by
  unfold whitespaceFn
  have hsum := congrArg List.length
    (List.takeWhile_append_dropWhile (p := Char.isWhitespace) (l := s))
  rw [List.length_append] at hsum
  omega

theorem wordFn_none_eq (s r : List Char) (h : wordFn s = (none, r)) : r = s := by
  unfold wordFn at h
  by_cases he : (s.takeWhile wordChar).isEmpty
  · simp only [he, if_true, Prod.mk.injEq] at h
    exact h.2.symm
  · simp [he] at h

theorem wordFn_some_eq (s t r : List Char) (h : wordFn s = (some t, r)) :
    t = s.takeWhile wordChar ∧ r = s.dropWhile wordChar ∧ t ≠ [] := by
  simp only [wordFn] at h
  split at h
  · simp at h
  · rename_i he
    simp only [Prod.mk.injEq, Option.some.injEq] at h
    refine ⟨h.1.symm, h.2.symm, ?_⟩
    rw [← h.1]
    intro hnil
    rw [hnil] at he
    exact he rfl

theorem wordFn_some_lt (s t r : List Char) (h : wordFn s = (some t, r)) :
    r.length < s.length := by
  obtain ⟨ht, hr, hne⟩ := wordFn_some_eq s t r h
  have hsum := congrArg List.length
    (List.takeWhile_append_dropWhile (p := wordChar) (l := s))
  rw [List.length_append] at hsum
  have hpos : 0 < (s.takeWhile wordChar).length := by
    rcases hc : s.takeWhile wordChar with _ | ⟨a, l⟩
    · exact absurd (ht.trans hc) hne
    · simp
  rw [hr]
  omega

theorem literalFn_true_lt (c : Char) (s r : List Char) (h : literalFn c s = (true, r)) :
    r.length < s.length := by
  unfold literalFn at h
  rcases s with _ | ⟨c', rest⟩
  · simp at h
  · by_cases hc : c' = c
    · simp only [hc, if_true, Prod.mk.injEq] at h
      rw [← h.2]
      simp
    · simp [hc] at h

theorem literalFn_false_eq (c : Char) (s r : List Char) (h : literalFn c s = (false, r)) :
    r = s := by
  unfold literalFn at h
  rcases s with _ | ⟨c', rest⟩
  · simp only [Prod.mk.injEq] at h
    exact h.2.symm
  · by_cases hc : c' = c
    · simp [hc] at h
    · simp only [hc, if_false, Prod.mk.injEq] at h
      exact h.2.symm

theorem pairFn_some_lt (s : List Char) (pv : List Char × List Char) (r : List Char)
    (h : pairFn s = (some pv, r)) : r.length < s.length := by
  simp only [pairFn] at h
  split at h
  · simp at h
  · rename_i prop r0 hw
    split at h
    · simp at h
    · rename_i r2 hl
      split at h
      · simp at h
      · rename_i val r4 hw2
        simp only [Prod.mk.injEq] at h
        have hlt0 : r0.length < s.length := wordFn_some_lt s prop r0 hw
        have h1 : r2.length < (whitespaceFn r0).length := literalFn_true_lt ':' _ _ hl
        have h2 : r4.length < (whitespaceFn r2).length := wordFn_some_lt _ val r4 hw2
        have h3 := whitespaceFn_le r0
        have h4 := whitespaceFn_le r2
        rw [← h.2]
        omega

theorem pairFn_none_le (s r : List Char) (h : pairFn s = (none, r)) :
    r.length ≤ s.length := by
  simp only [pairFn] at h
  split at h
  · rename_i r0 hw
    simp only [Prod.mk.injEq] at h
    rw [← h.2, wordFn_none_eq s r0 hw]
  · rename_i prop r0 hw
    split at h
    · rename_i r2 hl
      simp only [Prod.mk.injEq] at h
      have hlt0 : r0.length < s.length := wordFn_some_lt s prop r0 hw
      have h1 : r2 = whitespaceFn r0 := literalFn_false_eq ':' _ _ hl
      have h3 := whitespaceFn_le r0
      rw [← h.2, h1]
      omega
    · rename_i r2 hl
      split at h
      · rename_i r4 hw2
        simp only [Prod.mk.injEq] at h
        have hlt0 : r0.length < s.length := wordFn_some_lt s prop r0 hw
        have h1 : r2.length < (whitespaceFn r0).length := literalFn_true_lt ':' _ _ hl
        have h2 : r4 = whitespaceFn r2 := wordFn_none_eq _ r4 hw2
        have h3 := whitespaceFn_le r0
        have h4 := whitespaceFn_le r2
        rw [← h.2, h2]
        omega
      · simp at h

theorem ignoreUntil_le (chars l : List Char) (o : Option Char) (r : List Char)
    (h : ignoreUntil chars l = (o, r)) : r.length ≤ l.length := by
  induction l with
  | nil =>
    unfold ignoreUntil at h
    cases h
    simp
  | cons c rest ih =>
    unfold ignoreUntil at h
    by_cases hc : chars.contains c
    · simp only [hc, if_true, Prod.mk.injEq] at h
      exact le_of_eq (by rw [← h.2])
    · simp only [hc, if_false] at h
      exact le_trans (ih h) (by simp)

theorem ignoreUntil_some (chars l : List Char) (ch : Char) (r : List Char)
    (h : ignoreUntil chars l = (some ch, r)) : ∃ rest, r = ch :: rest := by
  induction l with
  | nil => simp [ignoreUntil] at h
  | cons c rest ih =>
    unfold ignoreUntil at h
    by_cases hc : chars.contains c
    · simp only [hc, if_true, Prod.mk.injEq, Option.some.injEq] at h
      exact ⟨rest, by rw [← h.2, h.1]⟩
    · simp only [hc, if_false] at h
      exact ih h

end CSSParser

namespace CSSParser

/-- `body`: the declaration-list loop with its `except AssertionError`
recovery (scan to the next `;` or closing brace, resume after `;`, stop
otherwise). -/
def bodyLoop (pairs : List (List Char × List Char)) (l : List Char) :
    List (List Char × List Char) × List Char :=
  match l with
  | [] => (pairs, [])
  | c :: r =>
    if c = rbrace then (pairs, c :: r)
    else
      match hp : pairFn (c :: r) with
      | (some (prop, val), r2) =>
        let pairs' := dupdate pairs (pyLower prop) val
        let r3 := whitespaceFn r2
        (match hl : literalFn ';' r3 with
         | (true, r4) => bodyLoop pairs' (whitespaceFn r4)
         | (false, _) =>
           match hi : ignoreUntil [';', rbrace] r3 with
           | (some ch, r5) =>
             if ch = ';' then bodyLoop pairs' (whitespaceFn r5.tail)
             else (pairs', r5)
           | (none, r5) => (pairs', r5))
      | (none, r2) =>
        match hi : ignoreUntil [';', rbrace] r2 with
        | (some ch, r5) =>
          if ch = ';' then bodyLoop pairs (whitespaceFn r5.tail)
          else (pairs, r5)
        | (none, r5) => (pairs, r5)
  termination_by l.length
  decreasing_by
  · simp_wf
    have a1 := pairFn_some_lt _ _ _ hp
    have a2 := whitespaceFn_le r2
    have a3 := literalFn_true_lt ';' _ _ hl
    have a4 := whitespaceFn_le r4
    have a5 : r3 = whitespaceFn r2 := rfl
    rw [a5] at a3
    simp only [List.length_cons] at a1 ⊢
    omega
  · simp_wf
    obtain ⟨rest, hrest⟩ := ignoreUntil_some _ _ _ _ hi
    have b1 := pairFn_some_lt _ _ _ hp
    have b2 := whitespaceFn_le r2
    have b3 := ignoreUntil_le _ _ _ _ hi
    subst hrest
    have b4 := whitespaceFn_le rest
    have b5 : r3 = whitespaceFn r2 := rfl
    rw [b5] at b3
    simp only [List.length_cons, List.tail_cons] at b1 b3 ⊢
    omega
  · simp_wf
    obtain ⟨rest, hrest⟩ := ignoreUntil_some _ _ _ _ hi
    have b1 := pairFn_none_le _ _ hp
    have b3 := ignoreUntil_le _ _ _ _ hi
    subst hrest
    have b4 := whitespaceFn_le rest
    simp only [List.length_cons, List.tail_cons] at b1 b3 ⊢
    omega

/-- `CSSParser(val).body()`: declarations parsed from an inline style
string. -/
def cssBody (v : List Char) : List (List Char × List Char) :=
  (bodyLoop [] v).1

end CSSParser

/-! ### Selectors (`css.py`) -/

/-- The closed selector family: `TagSelector`, `ClassSelector`,
`DescendentSelector`. -/
inductive Sel where
  | tag (t : List Char)
  | cls (k : List Char)
  | desc (anc dsc : Sel)
  deriving Repr, DecidableEq

/-- Selector priority: tag 1, class 10, descendant the sum of its parts
(the `priority` attributes set in the constructors). -/
def Sel.priority : Sel → ℕ
  | .tag _ => 1
  | .cls _ => 10
  | .desc a d => a.priority + d.priority

/-- View of a node as the selector machinery sees it: a `Text` or an
`Element` with tag and attribute dictionary. -/
inductive NodeView where
  | textv (s : List Char)
  | elemv (tag : List Char) (attrs : List (List Char × Option (List Char)))
  deriving Repr, DecidableEq

/-- Python `node.attrs.get(name)`: `None` both for a missing attribute and
for one stored with value `None`. -/
def attrGet (attrs : List (List Char × Option (List Char))) (k : List Char) :
    Option (List Char) :=
  match dlookup attrs k with
  | some (some v) => some v
  | _ => none

mutual
/-- `Selector.matches(node)`; the ancestor chain (nearest first) stands in
for the `node.parent` links that `DescendentSelector.matches` walks. -/
def matchesSel : Sel → NodeView → List NodeView → Bool
  | Sel.tag t, NodeView.elemv tg _, _ => t == tg
  | Sel.tag _, NodeView.textv _, _ => false
  | Sel.cls k, NodeView.elemv _ attrs, _ =>
      (match attrGet attrs (lc "class") with
       | some cv => if cv = [] then false else cv == k
       | none => false)
  | Sel.cls _, NodeView.textv _, _ => false
  | Sel.desc a d, n, anc => matchesSel d n anc && anyAncestor a anc
  termination_by sel _ _ => (sizeOf sel, 0)
/-- The `while node.parent` walk of `DescendentSelector.matches`. -/
def anyAncestor : Sel → List NodeView → Bool
  | _, [] => false
  | a, p :: rest => matchesSel a p rest || anyAncestor a rest
  termination_by a l => (sizeOf a, l.length + 1)
end

namespace CSSParser

/-- The descendant-chain loop of `selector`: while input remains and the
next character is not `{`, parse a word and wrap the accumulated selector
in a `DescendentSelector` with a tag selector for the word. -/
def selLoop (out : Sel) (l : List Char) : Except PErr (Sel × List Char) :=
  match l with
  | [] => .ok (out, [])
  | c :: r =>
    if c = lbrace then .ok (out, c :: r)
    else
      match hw : wordFn (c :: r) with
      | (some t, r2) => selLoop (Sel.desc out (Sel.tag (pyLower t))) (whitespaceFn r2)
      | (none, _) => .error .assertionError
  termination_by l.length
  decreasing_by
    simp_wf
    have a1 := wordFn_some_lt _ _ _ hw
    have a2 := whitespaceFn_le r2
    simp only [List.length_cons] at a1 ⊢
    omega

/-- `CSSParser.selector`: a lowercased first word (class selector when it
starts with `.`, tag selector otherwise), then the descendant chain. -/
def selectorFn (s : List Char) : Except PErr (Sel × List Char) :=
  match wordFn s with
  | (some w, r) =>
    let sel := pyLower w
    let out := if sel.head? = some '.' then Sel.cls sel.tail else Sel.tag sel
    selLoop out (whitespaceFn r)
  | (none, _) => .error .assertionError

end CSSParser

/-! ### The node tree and the cascade resolver (`css.py`) -/

/-- Document tree node (`htmlparser.py`): `Text` or `Element` with lowercase
tag, attribute dictionary, computed-style dictionary and children. -/
inductive NTree where
  | text (s : List Char)
  | elem (tag : List Char) (attrs : List (List Char × Option (List Char)))
      (style : List (List Char × List Char)) (children : List NTree)
  deriving Repr

abbrev StyleMap := List (List Char × List Char)
abbrev AttrMap := List (List Char × Option (List Char))
abbrev Rule := Sel × List (List Char × List Char)

/-- `value[:-n]` on strings. -/
def dropRight (s : List Char) (n : ℕ) : List Char := s.take (s.length - n)

/-- Python `str.endswith`. -/
def endsWith (s suf : List Char) : Bool := s.reverse.take suf.length == suf.reverse

theorem endsWith_append (x suf : List Char) : endsWith (x ++ suf) suf = true := by
  unfold endsWith
  rw [List.reverse_append, ← List.length_reverse suf, List.take_left]
  simp

theorem dropRight_append (x suf : List Char) : dropRight (x ++ suf) suf.length = x := by
  unfold dropRight
  rw [List.length_append]
  have h : x.length + suf.length - suf.length = x.length := by omega
  rw [h, List.take_left]

def INHERITED_PROPERTIES : List (List Char × List Char) :=
  [(lc "font-size", lc "16px"), (lc "font-style", lc "normal"),
   (lc "font-weight", lc "normal"), (lc "color", lc "black"),
   (lc "font-family", lc "Georgia")]

/-- `compute_style(node, property, value)`: the per-declaration value
transform.  Only `font-size` is transformed: `px` passes through, `%`
resolves against the parent's resolved `font-size` (the root uses the
inherited default), anything else yields no value.  `float(...)` on a
malformed numeral raises `ValueError`; a parent without a resolved
`font-size` raises `KeyError`. -/
def compute_style (parentStyle : Option StyleMap) (property value : List Char) :
    Except PErr (Option (List Char)) :=
  if property = lc "font-size" then
    if endsWith value (lc "px") then .ok (some value)
    else if endsWith value (lc "%") then do
      let parentFS ←
        match parentStyle with
        | some ps =>
          match dlookup ps (lc "font-size") with
          | some v => Except.ok v
          | none => Except.error PErr.keyError
        | none => Except.ok (lc "16px")
      let pct ← pyFloat (dropRight value 1)
      let ppx ← pyFloat (dropRight parentFS 2)
      .ok (some (pyFloatStr (pct / 100 * ppx) ++ lc "px"))
    else .ok none
  else .ok (some value)

/-- Step 1 of `style`: copy the five inherited properties from the parent's
resolved style, or from the defaults at the root. -/
def inheritStep (ps : Option StyleMap) (st : StyleMap) : Except PErr StyleMap :=
  INHERITED_PROPERTIES.foldlM
    (fun st pd =>
      match ps with
      | some pm =>
        match dlookup pm pd.1 with
        | some v => Except.ok (dupdate st pd.1 v)
        | none => Except.error PErr.keyError
      | none => Except.ok (dupdate st pd.1 pd.2)) st

/-- Apply one declaration body: compute each value and store it unless the
computed value is falsy (`None` or the empty string). -/
def applyBody (ps : Option StyleMap) (body : List (List Char × List Char))
    (st : StyleMap) : Except PErr StyleMap :=
  body.foldlM
    (fun st pv => do
      let cv ← compute_style ps pv.1 pv.2
      match cv with
      | none => pure st
      | some c => if c = [] then pure st else pure (dupdate st pv.1 c)) st

/-- Step 2 of `style`: apply the body of every rule whose selector matches
the node. -/
def applyRules (nv : NodeView) (anc : List NodeView) (ps : Option StyleMap)
    (rules : List Rule) (st : StyleMap) : Except PErr StyleMap :=
  rules.foldlM
    (fun st rule =>
      if matchesSel rule.1 nv anc then applyBody ps rule.2 st else pure st) st

/-- Step 3 of `style`: parse and apply the node's inline `style` attribute
when it is truthy. -/
def applyInline (attrs : AttrMap) (ps : Option StyleMap) (st : StyleMap) :
    Except PErr StyleMap :=
  match attrGet attrs (lc "style") with
  | some v => if v = [] then pure st else applyBody ps (CSSParser.cssBody v) st
  | none => pure st

/-- The effect of `style` on one element's style dictionary. -/
def nodeStyle (ps : Option StyleMap) (anc : List NodeView) (rules : List Rule)
    (tg : List Char) (attrs : AttrMap) (st0 : StyleMap) : Except PErr StyleMap := do
  let st1 ← inheritStep ps st0
  let st2 ← applyRules (NodeView.elemv tg attrs) anc ps rules st1
  applyInline attrs ps st2

mutual
/-- `style(node, rules)` of `css.py`, on an element with the given parent
style and ancestor chain: resolve this node, then recurse into element
children (text children are untouched). -/
def styleNode (ps : Option StyleMap) (anc : List NodeView) (rules : List Rule) :
    NTree → Except PErr NTree
  | NTree.text s => pure (NTree.text s)
  | NTree.elem tg attrs st0 kids => do
    let st3 ← nodeStyle ps anc rules tg attrs st0
    let kids2 ← styleChildren (some st3) (NodeView.elemv tg attrs :: anc) rules kids
    pure (NTree.elem tg attrs st3 kids2)
/-- The `for child in node.children` loop of `style`. -/
def styleChildren (ps : Option StyleMap) (anc : List NodeView) (rules : List Rule) :
    List NTree → Except PErr (List NTree)
  | [] => pure []
  | c :: rest => do
    let c2 ←
      match c with
      | NTree.text s => pure (NTree.text s)
      | NTree.elem tg attrs st0 kids => styleNode ps anc rules (NTree.elem tg attrs st0 kids)
    let rest2 ← styleChildren ps anc rules rest
    pure (c2 :: rest2)
end

/-- `style(root, rules)` as called on the tree root (no parent). -/
def style (node : NTree) (rules : List Rule) : Except PErr NTree :=
  styleNode none [] rules node

/-- `cascade_priority(rule)`: the sort key used to order rules by selector
specificity. -/
def cascade_priority (rule : Rule) : ℕ := rule.1.priority

/-- Modelled from the spec: the caller of `style` sorts the rule list by
`cascade_priority` with a stable sort before resolution ("rules are sorted
by the caller or at apply time --- ties preserve stylesheet order"); the
sorting call site itself is not among the sources.  Stable insertion:
a rule is placed after every rule of lower-or-equal priority. -/
def insertByPriority (r : Rule) : List Rule → List Rule
  | [] => [r]
  | x :: xs =>
      if cascade_priority x ≤ cascade_priority r then x :: insertByPriority r xs
      else r :: x :: xs

/-- Modelled from the spec: stable sort of the rule list by ascending
`cascade_priority`. -/
def sortRules (rules : List Rule) : List Rule :=
  rules.foldl (fun acc r => insertByPriority r acc) []

/-- Modelled from the spec: `resolve(root, rules)` — cascade resolution as
the pipeline runs it, `style` applied to the stably sorted rule list. -/
def resolve (root : NTree) (rules : List Rule) : Except PErr NTree :=
  style root (sortRules rules)

/-! ### The markup tree builder (`htmlparser.py`)

`lex` drives Python's streaming `HTMLParser` tokenizer (standard library,
outside this repository) through three handlers.  The embedding takes the
token stream the tokenizer delivers — start tags, end tags and text data —
and folds the handlers over it.  The mutable tree under construction is
represented as a zipper: each open element is a frame holding its tag, its
attribute dictionary and the children completed so far; a child element is
appended to its parent's child list when its frame is popped (or at end of
input), which yields exactly the child order produced by the source's
append-at-creation mutation, because an element's immediate children
complete in creation order and text/void children are appended
immediately. -/

/-- One token from the markup tokenizer. -/
inductive Tok where
  | start (tag : List Char) (attrs : List (List Char × Option (List Char)))
  | close (tag : List Char)
  | data (s : List Char)
  deriving Repr

def VOID_ELEMENT_TAGS : List (List Char) :=
  [lc "area", lc "base", lc "br", lc "col", lc "embed", lc "hr", lc "img",
   lc "input", lc "keygen", lc "link", lc "meta", lc "param", lc "source",
   lc "track", lc "wbr"]

/-- `Element.__init__`: build the attribute dictionary from the parsed
attribute list (a duplicate name keeps the last value). -/
def toAttrDict (attrs : List (List Char × Option (List Char))) : AttrMap :=
  dwrites attrs []

/-- An open element on the parser stack. -/
structure Frame where
  tag : List Char
  attrs : AttrMap
  children : List NTree
  deriving Repr

/-- The element a frame denotes once no more children can be attached. -/
def Frame.toTree (f : Frame) : NTree := NTree.elem f.tag f.attrs [] f.children

/-- Whether the first element has been opened, and where it lives. -/
inductive RootSt where
  | noRoot
  | inStack
  | done (t : NTree)
  deriving Repr

/-- Parser state: the open-element stack (top first) and the root. -/
structure BState where
  frames : List Frame
  root : RootSt
  deriving Repr

/-- Append a completed child to the element on top of the stack (no-op when
the stack is empty, matching `if self.open:`). -/
def attachTop (frames : List Frame) (child : NTree) : List Frame :=
  match frames with
  | [] => []
  | f :: rest => { f with children := f.children ++ [child] } :: rest

/-- The three `BrowserParser` handlers as one step function.
`handle_endtag` pops unconditionally; popping an empty stack raises
`IndexError`. -/
def stepTok (st : BState) : Tok → Except PErr BState
  | Tok.start tag attrs =>
    let dAttrs := toAttrDict attrs
    if VOID_ELEMENT_TAGS.contains tag then
      let leaf := NTree.elem tag dAttrs [] []
      let root2 :=
        match st.root with
        | RootSt.noRoot => RootSt.done leaf
        | r => r
      .ok ⟨attachTop st.frames leaf, root2⟩
    else
      let root2 :=
        match st.root with
        | RootSt.noRoot => RootSt.inStack
        | r => r
      .ok ⟨⟨tag, dAttrs, []⟩ :: st.frames, root2⟩
  | Tok.close tag =>
    if VOID_ELEMENT_TAGS.contains tag then .ok st
    else
      match st.frames with
      | [] => .error PErr.indexError
      | [f] =>
        match st.root with
        | RootSt.inStack => .ok ⟨[], RootSt.done f.toTree⟩
        | r => .ok ⟨[], r⟩
      | f :: g :: rest =>
        .ok ⟨{ g with children := g.children ++ [f.toTree] } :: rest, st.root⟩
  | Tok.data s =>
    match st.root with
    | RootSt.noRoot => .ok st
    | _ =>
      match st.frames with
      | [] => .ok st
      | _ => .ok ⟨attachTop st.frames (NTree.text s), st.root⟩

/-- Materialise the tree when input ends with elements still open: fold the
stack from the top, attaching each frame to its parent. -/
def collapseFrames : List Frame → Option NTree
  | [] => none
  | [f] => some f.toTree
  | f :: g :: rest =>
      collapseFrames ({ g with children := g.children ++ [f.toTree] } :: rest)
  termination_by l => l.length

/-- `lex(body)` on the token stream: run the handlers, then return the root
(raising when no element was ever opened). -/
def lex (toks : List Tok) : Except PErr NTree := do
  let st ← toks.foldlM stepTok ⟨[], RootSt.noRoot⟩
  match st.root with
  | RootSt.noRoot => .error PErr.noRootError
  | RootSt.done t => pure t
  | RootSt.inStack =>
    match collapseFrames st.frames with
    | some t => pure t
    | none => .error PErr.noRootError

/-- The input opens at least one element. -/
def hasStart (toks : List Tok) : Bool :=
  toks.any fun t =>
    match t with
    | Tok.start _ _ => true
    | _ => false

/-- Simulation of the open-stack depth starting from `d`: `true` when some
non-void close tag arrives on an empty stack. -/
def underflow (d : ℕ) : List Tok → Bool
  | [] => false
  | Tok.start tg _ :: rest =>
      underflow (if VOID_ELEMENT_TAGS.contains tg then d else d + 1) rest
  | Tok.close tg :: rest =>
      if VOID_ELEMENT_TAGS.contains tg then underflow d rest
      else if d = 0 then true else underflow (d - 1) rest
  | Tok.data _ :: rest => underflow d rest

/-- Tag and attribute list of the first start token. -/
def firstStart : List Tok →
    Option (List Char × List (List Char × Option (List Char)))
  | [] => none
  | Tok.start tg ats :: _ => some (tg, ats)
  | Tok.close _ :: rest => firstStart rest
  | Tok.data _ :: rest => firstStart rest

/-- Tag and attribute dictionary of an element tree. -/
def rootView : NTree → List Char × AttrMap
  | NTree.elem tg ats _ _ => (tg, ats)
  | NTree.text _ => ([], [])

/-! ### The layout engine (`browser.py`)

Inline layout of `BlockLayout`: `recurse`, `open_tag`, `close_tag`, `text`
and `flush`.  The font-measurement collaborator (tkinter) is a parameter:
a deterministic `measure`/`ascent`/`descent` triple.  Coordinates are exact
rationals; all source arithmetic on them (sums of pixel widths, `1.25 *`
integer metrics) is exact in floats as well.  The flat `display_list` of
the source is the concatenation of the per-flush groups kept here, which
preserve the line structure `flush` emits. -/

/-- The font descriptor `tkinter.font.Font(size, family, weight, slant)` is
constructed from. -/
structure FontD where
  size : ℕ
  family : List Char
  weight : List Char
  slant : List Char
  deriving Repr, DecidableEq

/-- The font-measurement service: width of a string, ascent and descent of
a font. -/
structure FontSys where
  measure : FontD → List Char → ℕ
  ascent : FontD → ℕ
  descent : FontD → ℕ

/-- A `DrawText` paint command (position, text, font). -/
structure DrawTextD where
  x : ℚ
  y : ℚ
  text : List Char
  font : FontD
  deriving Repr, DecidableEq

/-- `VSTEP`. -/
def VSTEP : ℚ := 18

/-- The mutable `BlockLayout` state used by inline layout. -/
structure LState where
  cursor_x : ℚ
  cursor_y : ℚ
  x : ℚ
  y : ℚ
  width : ℚ
  weight : List Char
  style : List Char
  size : ℕ
  family : List Char
  line : List (ℚ × List Char × FontD)
  display : List (List DrawTextD)
  deriving Repr, DecidableEq

/-- `BlockLayout.__init__` state (with the width `layout` copies from the
parent). -/
def initLState (width : ℚ) : LState :=
  { cursor_x := 0, cursor_y := 0, x := 0, y := 0, width := width,
    weight := lc "normal", style := lc "roman", size := 16,
    family := lc "Georgia", line := [], display := [] }

/-- Python `str.split()`: whitespace-separated tokens, no empties. -/
def pySplit (s : List Char) : List (List Char) :=
  match h1 : s.dropWhile Char.isWhitespace with
  | [] => []
  | c :: r =>
    (c :: r).takeWhile (fun c => !c.isWhitespace) ::
      pySplit ((c :: r).dropWhile (fun c => !c.isWhitespace))
  termination_by s.length
  decreasing_by
    have hc : Char.isWhitespace c = false := by
      have := List.head?_dropWhile_not Char.isWhitespace s
      rw [h1] at this
      simpa using this
    have h2 : (c :: r).dropWhile (fun c => !c.isWhitespace) =
        r.dropWhile (fun c => !c.isWhitespace) := by
      rw [List.dropWhile_cons]
      simp [hc]
    have h3 := congrArg List.length
      (List.takeWhile_append_dropWhile (p := fun c => !c.isWhitespace) (l := r))
    have h4 := congrArg List.length
      (List.takeWhile_append_dropWhile (p := Char.isWhitespace) (l := s))
    rw [List.length_append] at h3 h4
    rw [h1] at h4
    simp only [h2, List.length_cons] at h3 h4 ⊢
    omega

/-- `BlockLayout.flush`: no-op on an empty pending line; otherwise compute
the shared baseline from the maximum ascent, emit one `DrawText` per
buffered word, reset the horizontal cursor and the line buffer, and advance
the vertical cursor below the maximum descent. -/
def flushL (F : FontSys) (st : LState) : LState :=
  match st.line with
  | [] => st
  | e :: rest =>
    let entries := e :: rest
    let maxAscent : ℕ := (entries.map (fun en => F.ascent en.2.2)).foldl max 0
    let baseline : ℚ := st.cursor_y + (5 / 4 : ℚ) * (maxAscent : ℚ)
    let out : List DrawTextD := entries.map (fun en =>
      { x := en.1 + st.x, y := st.y + baseline - (F.ascent en.2.2 : ℚ),
        text := en.2.1, font := en.2.2 })
    let maxDescent : ℕ := (entries.map (fun en => F.descent en.2.2)).foldl max 0
    { st with
      cursor_x := 0,
      line := [],
      cursor_y := baseline + (5 / 4 : ℚ) * (maxDescent : ℚ),
      display := st.display ++ [out] }

/-- `BlockLayout.text`: one font for the whole token, then for each word
append it to the pending line at the current cursor, advance the cursor by
the word width plus a space width, and flush when the advanced cursor plus
the word width exceeds the box width. -/
def textL (F : FontSys) (st : LState) (txt : List Char) : LState :=
  let font : FontD :=
    { size := st.size, family := st.family, weight := st.weight, slant := st.style }
  (pySplit txt).foldl
    (fun st word =>
      let st1 := { st with line := st.line ++ [(st.cursor_x, word, font)] }
      let w : ℕ := F.measure font word
      let st2 := { st1 with
        cursor_x := st1.cursor_x + (w : ℚ) + (F.measure font (lc " ") : ℚ) }
      if st2.cursor_x + (w : ℚ) > st2.width then flushL F st2 else st2) st

/-- The `sizes` table of `BlockLayout`. -/
def sizesTable : List (List Char × ℕ) :=
  [(lc "h1", 24), (lc "h2", 20), (lc "h3", 18), (lc "h4", 16)]

/-- `BlockLayout.open_tag`. -/
def openTagL (F : FontSys) (st : LState) (tag : List Char) : LState :=
  if [lc "b", lc "strong"].contains tag then { st with weight := lc "bold" }
  else if [lc "i", lc "em"].contains tag then { st with style := lc "italic" }
  else if [lc "h1", lc "h2", lc "h3", lc "h4"].contains tag then
    { st with size := (dlookup sizesTable tag).getD 16, weight := lc "bold" }
  else if [lc "div", lc "p", lc "nav"].contains tag then flushL F st
  else st

/-- `BlockLayout.close_tag`. -/
def closeTagL (F : FontSys) (st : LState) (tag : List Char) : LState :=
  if [lc "b", lc "strong"].contains tag then { st with weight := lc "normal" }
  else if [lc "i", lc "em"].contains tag then { st with style := lc "roman" }
  else if [lc "h1", lc "h2", lc "h3", lc "h4"].contains tag then
    { st with size := 16, weight := lc "normal" }
  else if tag = lc "br" then flushL F st
  else if [lc "div", lc "p", lc "nav"].contains tag then
    let st2 := flushL F st
    { st2 with cursor_y := st2.cursor_y + VSTEP }
  else st

mutual
/-- `BlockLayout.recurse`. -/
def recurseL (F : FontSys) (st : LState) : NTree → LState
  | NTree.text s => textL F st s
  | NTree.elem tg _ _ kids =>
    let st1 := openTagL F st tg
    let st2 := recurseKids F st1 kids
    closeTagL F st2 tg
/-- The child loop of `BlockLayout.recurse`. -/
def recurseKids (F : FontSys) (st : LState) : List NTree → LState
  | [] => st
  | c :: rest => recurseKids F (recurseL F st c) rest
end

/-- The inline branch of `BlockLayout.layout`: recurse over the subtree,
then flush the final pending line. -/
def layoutInline (F : FontSys) (st : LState) (t : NTree) : LState :=
  flushL F (recurseL F st t)

/-- Follows the spec's words (the refinement reference for inline-layout
fonts, not a source function): the family the spec says each word's font
descriptor uses — the first comma-separated token of the node's resolved
`font-family`. -/
def specFontFamily (st : StyleMap) : List Char :=
  ((dlookup st (lc "font-family")).getD (lc "Georgia")).takeWhile (fun c => c ≠ ',')

mutual
/-- Rewrite every computed-style dictionary in a tree (structure, tags,
attributes and text unchanged). -/
def mapStyles (f : StyleMap → StyleMap) : NTree → NTree
  | NTree.text s => NTree.text s
  | NTree.elem tg ats st kids => NTree.elem tg ats (f st) (mapStylesList f kids)
def mapStylesList (f : StyleMap → StyleMap) : List NTree → List NTree
  | [] => []
  | c :: rest => mapStyles f c :: mapStylesList f rest
end

/-- `get_font` with the `FONTS` cache and explicit recursion fuel: on a
cache miss the source computes the "new" font by calling itself with the
same arguments, so the fuel runs out (`none` models the unbounded
recursion); on a hit it returns the cached handle. -/
def get_font : ℕ → List ((ℕ × List Char × List Char) × FontD) →
    ℕ × List Char × List Char →
    Option (FontD × List ((ℕ × List Char × List Char) × FontD))
  | 0, _, _ => none
  | fuel + 1, cache, key =>
    match dlookup cache key with
    | some f => some (f, cache)
    | none =>
      match get_font fuel cache key with
      | some fc => some (fc.1, dupdate fc.2 key fc.1)
      | none => none

/-! ### Claim theorems -/

/-- C10: `ClassSelector.matches(node)` is true exactly when the node is an
Element whose entire `class` attribute string equals the selector's class
name and is nonempty; a missing, valueless or empty `class` attribute never
matches, and a multi-class attribute string is compared as a whole, so an
element listing several whitespace-separated class names never matches a
selector naming just one of them. -/
theorem C10_class_matches_whole_attr (k : List Char) (nv : NodeView)
    (anc : List NodeView) :
    matchesSel (Sel.cls k) nv anc = true ↔
      ∃ tg attrs c, nv = NodeView.elemv tg attrs ∧
        attrGet attrs (lc "class") = some c ∧ c ≠ [] ∧ c = k := by
  constructor
  · intro h
    cases nv with
    | textv s => simp [matchesSel] at h
    | elemv tg attrs =>
      rcases hg : attrGet attrs (lc "class") with _ | cv
      · simp only [matchesSel, hg] at h
        exact absurd h (by simp)
      · simp only [matchesSel, hg] at h
        by_cases hc : cv = []
        · rw [if_pos hc] at h
          exact absurd h (by simp)
        · rw [if_neg hc] at h
          exact ⟨tg, attrs, cv, rfl, hg, hc, by exact beq_iff_eq.mp h⟩
  · rintro ⟨tg, attrs, c, rfl, hg, hne, rfl⟩
    simp only [matchesSel, hg]
    rw [if_neg hne]
    exact beq_self_eq_true c

/-- C7: `get_font` never terminates on a cache miss — on any key absent
from the empty `FONTS` cache (here the default-font key), the source's
recursive self-call with identical arguments consumes any amount of fuel
without producing a font handle, instead of materialising and memoising
one as the claim states. -/
theorem C7_get_font_diverges (fuel : ℕ) :
    get_font fuel [] (16, lc "normal", lc "roman") = none := by
  induction fuel with
  | zero => rfl
  | succ n ih => simp [get_font, dlookup, ih]

namespace CSSParser

theorem wordChar_not_ws (c : Char) (h : wordChar c = true) :
    c.isWhitespace = false := by
  by_contra hw
  rw [Bool.not_eq_false, Char.isWhitespace] at hw
  simp only [Bool.or_eq_true, decide_eq_true_eq] at hw
  rcases hw with ((rfl | rfl) | rfl) | rfl <;> exact absurd h (by decide)

theorem wordFn_prefix (w r : List Char) (hw : w ≠ [])
    (hall : ∀ c ∈ w, wordChar c = true)
    (hr : ∀ c, r.head? = some c → wordChar c = false) :
    wordFn (w ++ r) = (some w, r) := by
  have ht : (w ++ r).takeWhile wordChar = w := by
    rw [takeWhile_all_append _ _ _ hall]
    rcases r with _ | ⟨c, r'⟩
    · simp
    · rw [List.takeWhile_cons, hr c rfl]
      simp
  have hd : (w ++ r).dropWhile wordChar = r := by
    rw [dropWhile_all_append _ _ _ hall]
    rcases r with _ | ⟨c, r'⟩
    · simp
    · rw [List.dropWhile_cons, hr c rfl]
      simp
  simp only [wordFn, ht, hd]
  rcases w with _ | ⟨a, w'⟩
  · exact absurd rfl hw
  · simp

theorem whitespaceFn_space (l : List Char) :
    whitespaceFn (' ' :: l) = whitespaceFn l := by
  unfold whitespaceFn
  rw [List.dropWhile_cons]
  simp

theorem whitespaceFn_stop (l : List Char)
    (h : ∀ c, l.head? = some c → c.isWhitespace = false) :
    whitespaceFn l = l := by
  unfold whitespaceFn
  rcases l with _ | ⟨c, r⟩
  · rfl
  · rw [List.dropWhile_cons, h c rfl]
    simp

/-- Words of a selector chain joined by single spaces. -/
def joinSp : List (List Char) → List Char
  | [] => []
  | [w] => w
  | w :: rest => w ++ ' ' :: joinSp rest

end CSSParser

/-- The selector the source builds for the first word of a chain: a class
selector when the lowercased word starts with `.` (class name without the
dot), otherwise a tag selector. -/
def simpleSel (w : List Char) : Sel :=
  if (pyLower w).head? = some '.' then Sel.cls (pyLower w).tail
  else Sel.tag (pyLower w)

/-- The selector the source builds for a whole chain: every word after the
first is folded in as a descendant tag selector. -/
def chainSel (w0 : List Char) (ws : List (List Char)) : Sel :=
  ws.foldl (fun acc w => Sel.desc acc (Sel.tag (pyLower w))) (simpleSel w0)

theorem joinSp_cons_cons (w w2 : List Char) (rest : List (List Char)) :
    CSSParser.joinSp (w :: w2 :: rest) = w ++ ' ' :: CSSParser.joinSp (w2 :: rest) := by
  rw [CSSParser.joinSp]
  intro h
  simp at h

/-- One step of the selector chain: the joined input starts with its first
word, `word` consumes exactly that word, and the following whitespace is
skipped up to the next word (or the `{`). -/
theorem chain_step (w : List Char) (ws : List (List Char)) (hwne : w ≠ [])
    (hwall : ∀ c ∈ w, CSSParser.wordChar c = true)
    (hws : ∀ v ∈ ws, v ≠ [] ∧ ∀ c ∈ v, CSSParser.wordChar c = true) :
    ∃ X, CSSParser.joinSp (w :: ws) ++ [lbrace] = w ++ X ∧
      CSSParser.wordFn (w ++ X) = (some w, X) ∧
      CSSParser.whitespaceFn X = CSSParser.joinSp ws ++ [lbrace] := by
  rcases ws with _ | ⟨w2, rest2⟩
  · refine ⟨[lbrace], ?_, ?_, ?_⟩
    · rw [CSSParser.joinSp]
    · refine CSSParser.wordFn_prefix w [lbrace] hwne hwall ?_
      intro c hc
      simp only [List.head?_cons, Option.some.injEq] at hc
      subst hc
      decide
    · rw [CSSParser.joinSp]
      simp only [List.nil_append]
      refine CSSParser.whitespaceFn_stop _ ?_
      intro c hc
      simp only [List.head?_cons, Option.some.injEq] at hc
      subst hc
      decide
  · obtain ⟨h2ne, h2all⟩ := hws w2 (List.mem_cons_self w2 rest2)
    obtain ⟨b, w2', rfl⟩ : ∃ b t, w2 = b :: t := by
      rcases w2 with _ | ⟨b, t⟩
      · exact absurd rfl h2ne
      · exact ⟨b, t, rfl⟩
    refine ⟨' ' :: (CSSParser.joinSp ((b :: w2') :: rest2) ++ [lbrace]), ?_, ?_, ?_⟩
    · rw [joinSp_cons_cons]
      simp
    · refine CSSParser.wordFn_prefix w _ hwne hwall ?_
      intro c hc
      simp only [List.head?_cons, Option.some.injEq] at hc
      subst hc
      decide
    · rw [CSSParser.whitespaceFn_space]
      refine CSSParser.whitespaceFn_stop _ ?_
      intro c hc
      have hj : ∃ t, CSSParser.joinSp ((b :: w2') :: rest2) = b :: t := by
        rcases rest2 with _ | ⟨w3, rest3⟩
        · exact ⟨w2', by rw [CSSParser.joinSp]⟩
        · exact ⟨w2' ++ ' ' :: CSSParser.joinSp (w3 :: rest3), by rw [joinSp_cons_cons]; rfl⟩
      obtain ⟨t, ht⟩ := hj
      rw [ht] at hc
      simp only [List.cons_append, List.head?_cons, Option.some.injEq] at hc
      subst hc
      exact CSSParser.wordChar_not_ws b (h2all b (List.mem_cons_self b w2'))

/-- The descendant-chain loop consumes the whole chain, folding each word
into a descendant tag selector. -/
theorem selLoop_chain (ws : List (List Char)) :
    ∀ out : Sel, (∀ w ∈ ws, w ≠ [] ∧ ∀ c ∈ w, CSSParser.wordChar c = true) →
    CSSParser.selLoop out (CSSParser.joinSp ws ++ [lbrace]) =
      .ok (ws.foldl (fun acc w => Sel.desc acc (Sel.tag (pyLower w))) out, [lbrace]) := by
  induction ws with
  | nil =>
    intro out _
    rw [CSSParser.joinSp]
    simp only [List.nil_append, List.foldl_nil]
    rw [CSSParser.selLoop]
    rw [if_pos rfl]
  | cons w rest ih =>
    intro out hws
    obtain ⟨hwne, hwall⟩ := hws w (List.mem_cons_self w rest)
    have hws' := fun v hv => hws v (List.mem_cons_of_mem w hv)
    obtain ⟨X, hXeq, hword, hwsX⟩ := chain_step w rest hwne hwall hws'
    rw [hXeq]
    obtain ⟨a, w', rfl⟩ : ∃ a t, w = a :: t := by
      rcases w with _ | ⟨a, t⟩
      · exact absurd rfl hwne
      · exact ⟨a, t, rfl⟩
    have ha : CSSParser.wordChar a = true := hwall a (List.mem_cons_self a w')
    have halb : ¬ a = lbrace := by
      intro he
      rw [he] at ha
      exact absurd ha (by decide)
    have hword' : CSSParser.wordFn (a :: (w' ++ X)) = (some (a :: w'), X) := by
      rw [← List.cons_append]
      exact hword
    show CSSParser.selLoop out (a :: (w' ++ X)) = _
    rw [CSSParser.selLoop]
    rw [if_neg halb]
    split
    · rename_i t r2 hw
      rw [hword'] at hw
      injection hw with hw1 hw2
      injection hw1 with hw1
      subst hw1
      subst hw2
      rw [hwsX, List.foldl_cons]
      exact ih _ hws'
    · rename_i hw
      rw [hword'] at hw
      exact absurd hw (by simp)

theorem chainSel_priority (w0 : List Char) (ws : List (List Char)) :
    (chainSel w0 ws).priority = (simpleSel w0).priority + ws.length := by
  unfold chainSel
  generalize simpleSel w0 = init
  induction ws generalizing init with
  | nil => simp
  | cons w rest ih =>
    simp only [List.foldl_cons, List.length_cons]
    rw [ih]
    simp [Sel.priority]
    ring

/-- C9 (amended): parsing a chain of whitespace-separated words before `{`
folds left into nested descendant selectors, the left-most word being the
outermost ancestor; only the first word may denote a class selector
(contributing 10) — every later word becomes a tag selector, even one that
starts with `.` — and the specificity is the first component's specificity
plus one per additional word. -/
theorem C9_selector_chain (w0 : List Char) (ws : List (List Char))
    (h0 : w0 ≠ [] ∧ ∀ c ∈ w0, CSSParser.wordChar c = true)
    (hws : ∀ w ∈ ws, w ≠ [] ∧ ∀ c ∈ w, CSSParser.wordChar c = true) :
    CSSParser.selectorFn (CSSParser.joinSp (w0 :: ws) ++ [lbrace]) =
      .ok (chainSel w0 ws, [lbrace]) ∧
    (chainSel w0 ws).priority = (simpleSel w0).priority + ws.length := by
  obtain ⟨h0ne, h0all⟩ := h0
  refine ⟨?_, chainSel_priority w0 ws⟩
  obtain ⟨X, hXeq, hword, hwsX⟩ := chain_step w0 ws h0ne h0all hws
  rw [hXeq]
  unfold CSSParser.selectorFn
  simp only [hword]
  rw [hwsX]
  exact selLoop_chain ws _ hws

/-- C9 counterexample: in the chain `".a .b"` the second `.`-prefixed word
does not become a class selector — the source parses it as
`TagSelector(".b")` — and the chain's specificity is `10 + 1 = 11`, not the
`10 + 10 = 20` that a class component at the second position would
contribute. -/
theorem C9_counterexample :
    CSSParser.selectorFn (lc ".a" ++ ' ' :: lc ".b" ++ [lbrace]) =
      .ok (Sel.desc (Sel.cls (lc "a")) (Sel.tag (lc ".b")), [lbrace]) ∧
    (Sel.desc (Sel.cls (lc "a")) (Sel.tag (lc ".b"))).priority = 11 ∧
    (Sel.desc (Sel.cls (lc "a")) (Sel.cls (lc "b"))).priority = 20 := by
  refine ⟨?_, by decide, by decide⟩
  simp [CSSParser.selectorFn, CSSParser.selLoop, CSSParser.wordFn,
    CSSParser.whitespaceFn, CSSParser.wordChar, CSSParser.wordExtra, pyLower,
    lc, lbrace, List.takeWhile, List.dropWhile, Char.toLower]

/-- C9 witness: the spec's own example `"div p"` parses to
`descendant(tag(div), tag(p))` with specificity 2. -/
theorem C9_selector_chain_witness :
    CSSParser.selectorFn (CSSParser.joinSp [lc "div", lc "p"] ++ [lbrace]) =
      .ok (chainSel (lc "div") [lc "p"], [lbrace]) ∧
    (chainSel (lc "div") [lc "p"]).priority =
      (simpleSel (lc "div")).priority + [lc "p"].length :=
  C9_selector_chain (lc "div") [lc "p"]
    (by refine ⟨by decide, ?_⟩; intro c hc; fin_cases hc <;> decide)
    (by intro w hw; fin_cases hw; exact ⟨by decide, by intro c hc; fin_cases hc; decide⟩)

/-! ### Tree-builder invariants (C5) -/

/-- Tag/attributes view of a frame. -/
def fview (f : Frame) : List Char × AttrMap := (f.tag, f.attrs)

/-- Invariant of the builder state: before the first element there are no
open frames, and while the root is on the stack the stack is nonempty. -/
def WFState (st : BState) : Prop :=
  (st.root = RootSt.noRoot → st.frames = []) ∧
  (st.root = RootSt.inStack → st.frames ≠ [])

/-- Tag/attributes of the root, wherever it lives (`inStack`: the bottom
frame). -/
def rootInfo (st : BState) : Option (List Char × AttrMap) :=
  match st.root with
  | RootSt.noRoot => none
  | RootSt.done t => some (rootView t)
  | RootSt.inStack => st.frames.getLast?.map fview

/-- The open-stack depth change of one token. -/
def stepDepth (d : ℕ) : Tok → ℕ
  | Tok.start tg _ => if VOID_ELEMENT_TAGS.contains tg then d else d + 1
  | Tok.close tg => if VOID_ELEMENT_TAGS.contains tg then d else d - 1
  | Tok.data _ => d

/-- Root information a token contributes when no root exists yet. -/
def startInfo : Tok → Option (List Char × AttrMap)
  | Tok.start tg ats => some (tg, toAttrDict ats)
  | _ => none

theorem attachTop_length (frames : List Frame) (c : NTree) :
    (attachTop frames c).length = frames.length := by
  cases frames <;> rfl

theorem getLast_view_cons (g g' : Frame) (rest : List Frame)
    (hview : fview g' = fview g) :
    ((g' :: rest).getLast?).map fview = ((g :: rest).getLast?).map fview := by
  cases rest with
  | nil => simp [hview]
  | cons a l => simp [List.getLast?_cons_cons]

theorem attachTop_getLast_view (frames : List Frame) (c : NTree)
    (h : frames ≠ []) :
    ((attachTop frames c).getLast?).map fview = (frames.getLast?).map fview := by
  cases frames with
  | nil => exact absurd rfl h
  | cons f rest =>
    show (({ f with children := f.children ++ [c] } : Frame) :: rest).getLast?.map fview = _
    exact getLast_view_cons f _ rest rfl

theorem attachTop_ne_nil (frames : List Frame) (c : NTree) (h : frames ≠ []) :
    attachTop frames c ≠ [] := by
  cases frames with
  | nil => exact absurd rfl h
  | cons f rest => simp [attachTop]

theorem getLast_cons_ne (x : Frame) (frames : List Frame) (h : frames ≠ []) :
    (x :: frames).getLast? = frames.getLast? := by
  cases frames with
  | nil => exact absurd rfl h
  | cons f rest => exact List.getLast?_cons_cons

theorem exists_getLast (l : List Frame) (h : l ≠ []) : ∃ x, l.getLast? = some x := by
  induction l with
  | nil => exact absurd rfl h
  | cons a r ih =>
    cases r with
    | nil => exact ⟨a, rfl⟩
    | cons b r2 =>
      obtain ⟨x, hx⟩ := ih (by simp)
      exact ⟨x, by rw [List.getLast?_cons_cons]; exact hx⟩

/-- Keep an existing optional value, otherwise take the new one. -/
def orChoose {α : Type} (o z : Option α) : Option α :=
  match o with
  | some i => some i
  | none => z

theorem orChoose_some {α : Type} (o : Option α) (z : Option α) (h : o ≠ none) :
    orChoose o z = o := by
  cases o with
  | none => exact absurd rfl h
  | some v => rfl

@[simp] theorem orChoose_none {α : Type} (z : Option α) : orChoose none z = z := rfl

theorem rootInfo_inStack_ne_none (frames : List Frame) (h : frames ≠ []) :
    rootInfo ⟨frames, RootSt.inStack⟩ ≠ none := by
  simp only [rootInfo]
  obtain ⟨x, hx⟩ := exists_getLast frames h
  rw [hx]
  simp

theorem stepTok_ok_spec (st : BState) (tok : Tok) (st' : BState) (hwf : WFState st)
    (h : stepTok st tok = .ok st') :
    WFState st' ∧ st'.frames.length = stepDepth st.frames.length tok ∧
    rootInfo st' = orChoose (rootInfo st) (startInfo tok) := by
  obtain ⟨frames, root⟩ := st
  obtain ⟨hwf1, hwf2⟩ := hwf
  simp only at hwf1 hwf2
  cases tok with
  | start tg ats =>
    simp only [stepTok] at h
    by_cases hv : VOID_ELEMENT_TAGS.contains tg = true
    · rw [if_pos hv] at h
      injection h with h
      subst h
      cases root with
      | noRoot =>
        have hfe : frames = [] := hwf1 rfl
        subst hfe
        refine ⟨⟨by simp, by simp⟩, ?_, ?_⟩
        · simp only [attachTop, stepDepth]
          rw [if_pos hv]
        · simp [rootInfo, startInfo, rootView, attachTop, orChoose]
      | inStack =>
        have hfn : frames ≠ [] := hwf2 rfl
        refine ⟨⟨by simp, fun _ => attachTop_ne_nil frames _ hfn⟩, ?_, ?_⟩
        · simp only [attachTop_length, stepDepth]
          rw [if_pos hv]
        · rw [orChoose_some _ _ (rootInfo_inStack_ne_none frames hfn)]
          simp only [rootInfo]
          exact attachTop_getLast_view frames _ hfn
      | done t =>
        refine ⟨⟨by simp, by simp⟩, ?_, ?_⟩
        · simp only [attachTop_length, stepDepth]
          rw [if_pos hv]
        · simp [rootInfo, orChoose]
    · rw [if_neg hv] at h
      injection h with h
      subst h
      cases root with
      | noRoot =>
        have hfe : frames = [] := hwf1 rfl
        subst hfe
        refine ⟨⟨by simp, by simp⟩, ?_, ?_⟩
        · simp only [stepDepth, List.length_cons, List.length_nil]
          rw [if_neg hv]
        · simp [rootInfo, startInfo, fview, orChoose]
      | inStack =>
        have hfn : frames ≠ [] := hwf2 rfl
        refine ⟨⟨by simp, by simp⟩, ?_, ?_⟩
        · simp only [stepDepth, List.length_cons]
          rw [if_neg hv]
        · rw [orChoose_some _ _ (rootInfo_inStack_ne_none frames hfn)]
          simp only [rootInfo]
          rw [getLast_cons_ne _ frames hfn]
      | done t =>
        refine ⟨⟨by simp, by simp⟩, ?_, ?_⟩
        · simp only [stepDepth, List.length_cons]
          rw [if_neg hv]
        · simp [rootInfo, orChoose]
  | close tg =>
    simp only [stepTok] at h
    by_cases hv : VOID_ELEMENT_TAGS.contains tg = true
    · rw [if_pos hv] at h
      injection h with h
      subst h
      refine ⟨⟨hwf1, hwf2⟩, ?_, ?_⟩
      · simp only [stepDepth]
        rw [if_pos hv]
      · cases hg : rootInfo ⟨frames, root⟩ <;> simp [hg, startInfo, orChoose]
    · rw [if_neg hv] at h
      rcases frames with _ | ⟨f, rest⟩
      · exact absurd h (by simp)
      · rcases rest with _ | ⟨g, rest2⟩
        · cases root with
          | noRoot => exact absurd (hwf1 rfl) (by simp)
          | inStack =>
            injection h with h
            subst h
            refine ⟨⟨by simp, by simp⟩, ?_, ?_⟩
            · simp only [stepDepth, List.length_cons, List.length_nil]
              rw [if_neg hv]
            · rw [orChoose_some _ _ (rootInfo_inStack_ne_none [f] (by simp))]
              simp [rootInfo, Frame.toTree, rootView, fview]
          | done t =>
            injection h with h
            subst h
            refine ⟨⟨by simp, by simp⟩, ?_, ?_⟩
            · simp only [stepDepth, List.length_cons, List.length_nil]
              rw [if_neg hv]
            · simp [rootInfo, orChoose]
        · injection h with h
          subst h
          refine ⟨⟨?_, by simp⟩, ?_, ?_⟩
          · intro hr
            exact absurd (hwf1 hr) (by simp)
          · simp only [stepDepth, List.length_cons]
            rw [if_neg hv]
            omega
          · cases root with
            | noRoot => simp [rootInfo, startInfo, orChoose]
            | done t => simp [rootInfo, orChoose]
            | inStack =>
              rw [orChoose_some _ _ (rootInfo_inStack_ne_none (f :: g :: rest2) (by simp))]
              simp only [rootInfo]
              rw [List.getLast?_cons_cons]
              exact getLast_view_cons g _ rest2 rfl
  | data s =>
    simp only [stepTok] at h
    cases root with
    | noRoot =>
      injection h with h
      subst h
      exact ⟨⟨hwf1, hwf2⟩, by simp [stepDepth], by simp [rootInfo, startInfo, orChoose]⟩
    | inStack =>
      have hfn : frames ≠ [] := hwf2 rfl
      rcases hfr : frames with _ | ⟨f, rest⟩
      · exact absurd hfr hfn
      · rw [hfr] at h
        injection h with h
        subst h
        refine ⟨⟨by simp, fun _ => attachTop_ne_nil (f :: rest) (NTree.text s) (by simp)⟩,
          ?_, ?_⟩
        · simp [attachTop_length, stepDepth]
        · rw [orChoose_some _ _ (rootInfo_inStack_ne_none (f :: rest) (by simp))]
          simp only [rootInfo]
          exact attachTop_getLast_view (f :: rest) _ (by simp)
    | done t =>
      rcases hfr : frames with _ | ⟨f, rest⟩
      · rw [hfr] at h
        injection h with h
        subst h
        exact ⟨⟨by simp, by simp⟩, by simp [stepDepth], by simp [rootInfo, orChoose]⟩
      · rw [hfr] at h
        injection h with h
        subst h
        refine ⟨⟨by simp, by simp⟩, ?_, ?_⟩
        · simp [attachTop_length, stepDepth]
        · simp [rootInfo, orChoose]

theorem stepTok_error_spec (st : BState) (tok : Tok) (e : PErr)
    (h : stepTok st tok = .error e) :
    st.frames = [] ∧
    ∃ tg, tok = Tok.close tg ∧ VOID_ELEMENT_TAGS.contains tg = false := by
  obtain ⟨frames, root⟩ := st
  cases tok with
  | start tg ats =>
    simp only [stepTok] at h
    by_cases hv : VOID_ELEMENT_TAGS.contains tg = true
    · rw [if_pos hv] at h
      exact absurd h (by simp)
    · rw [if_neg hv] at h
      exact absurd h (by simp)
  | close tg =>
    simp only [stepTok] at h
    by_cases hv : VOID_ELEMENT_TAGS.contains tg = true
    · rw [if_pos hv] at h
      exact absurd h (by simp)
    · rw [if_neg hv] at h
      rcases frames with _ | ⟨f, rest⟩
      · exact ⟨rfl, tg, rfl, by simpa using hv⟩
      · rcases rest with _ | ⟨g, rest2⟩
        · cases root <;> exact absurd h (by simp)
        · exact absurd h (by simp)
  | data s =>
    simp only [stepTok] at h
    cases root with
    | noRoot => exact absurd h (by simp)
    | inStack =>
      rcases frames with _ | ⟨f, rest⟩ <;> exact absurd h (by simp)
    | done t =>
      rcases frames with _ | ⟨f, rest⟩ <;> exact absurd h (by simp)

@[simp] theorem orChoose_none_right {α : Type} (o : Option α) : orChoose o none = o := by
  cases o <;> rfl

theorem underflow_step (st : BState) (tok : Tok) (st₁ : BState) (rest : List Tok)
    (hstep : stepTok st tok = .ok st₁)
    (hdep : st₁.frames.length = stepDepth st.frames.length tok) :
    underflow st.frames.length (tok :: rest) = underflow st₁.frames.length rest := by
  cases tok with
  | start tg ats =>
    simp only [underflow]
    simp only [stepDepth] at hdep
    rw [hdep]
  | close tg =>
    by_cases hv : VOID_ELEMENT_TAGS.contains tg = true
    · simp only [underflow, stepDepth] at hdep ⊢
      rw [if_pos hv] at hdep ⊢
      rw [hdep]
    · have hne : st.frames ≠ [] := by
        intro hfe
        simp only [stepTok] at hstep
        rw [if_neg hv, hfe] at hstep
        exact absurd hstep (by simp)
      have hd0 : st.frames.length ≠ 0 := by
        intro h0
        exact hne (List.length_eq_zero.mp h0)
      simp only [underflow, stepDepth] at hdep ⊢
      rw [if_neg hv] at hdep ⊢
      rw [if_neg hd0, hdep]
  | data s =>
    simp only [underflow, stepDepth] at hdep ⊢
    rw [hdep]

theorem orChoose_start (a : Option (List Char × AttrMap)) (tok : Tok) (rest : List Tok) :
    orChoose (orChoose a (startInfo tok))
        ((firstStart rest).map (fun p => (p.1, toAttrDict p.2))) =
      orChoose a ((firstStart (tok :: rest)).map (fun p => (p.1, toAttrDict p.2))) := by
  cases a with
  | some i => rfl
  | none =>
    cases tok <;> simp [orChoose, startInfo, firstStart]

theorem run_spec (toks : List Tok) : ∀ st : BState, WFState st →
    (∀ e, toks.foldlM stepTok st = .error e →
        underflow st.frames.length toks = true) ∧
    (∀ st', toks.foldlM stepTok st = .ok st' →
        underflow st.frames.length toks = false ∧ WFState st' ∧
        rootInfo st' = orChoose (rootInfo st)
          ((firstStart toks).map (fun p => (p.1, toAttrDict p.2)))) := by
  induction toks with
  | nil =>
    intro st hwf
    constructor
    · intro e he
      rw [List.foldlM_nil] at he
      exact absurd he (by simp [pure, Except.pure])
    · intro st' h
      rw [List.foldlM_nil] at h
      simp only [pure, Except.pure] at h
      injection h with h
      subst h
      exact ⟨rfl, hwf, by simp [firstStart]⟩
  | cons tok rest ih =>
    intro st hwf
    rcases hstep : stepTok st tok with e | st₁
    · constructor
      · intro e' _
        obtain ⟨hfe, tg, rfl, hvv⟩ := stepTok_error_spec st tok e hstep
        rw [hfe]
        simp only [underflow, List.length_nil]
        rw [if_neg (by simpa using hvv)]
        simp
      · intro st' h'
        rw [List.foldlM_cons, hstep] at h'
        exact absurd h' (by simp [Bind.bind, Except.bind])
    · obtain ⟨hwf₁, hdep, hroot⟩ := stepTok_ok_spec st tok st₁ hwf hstep
      obtain ⟨ihE, ihO⟩ := ih st₁ hwf₁
      have hbind : (tok :: rest).foldlM stepTok st = rest.foldlM stepTok st₁ := by
        rw [List.foldlM_cons, hstep]
        rfl
      constructor
      · intro e he
        rw [hbind] at he
        rw [underflow_step st tok st₁ rest hstep hdep]
        exact ihE e he
      · intro st' h'
        rw [hbind] at h'
        obtain ⟨hu, hwf', hri⟩ := ihO st' h'
        refine ⟨?_, hwf', ?_⟩
        · rw [underflow_step st tok st₁ rest hstep hdep]
          exact hu
        · rw [hri, hroot]
          exact orChoose_start _ tok rest

theorem collapse_view (n : ℕ) : ∀ fs : List Frame, fs.length = n → fs ≠ [] →
    ∃ t, collapseFrames fs = some t ∧
      fs.getLast?.map fview = some (rootView t) := by
  induction n using Nat.strong_induction_on with
  | _ n ih =>
    intro fs hlen hne
    match fs with
    | [f] =>
      refine ⟨f.toTree, by rw [collapseFrames], ?_⟩
      simp [fview, Frame.toTree, rootView]
    | f :: g :: rest =>
      have hstep : collapseFrames (f :: g :: rest) =
          collapseFrames ({ g with children := g.children ++ [f.toTree] } :: rest) := by
        rw [collapseFrames]
      have hlen2 : ({ g with children := g.children ++ [f.toTree] } :: rest).length = n - 1 := by
        simp only [List.length_cons] at hlen ⊢
        omega
      have hlt : n - 1 < n := by
        simp only [List.length_cons] at hlen
        omega
      obtain ⟨t, hc, hv⟩ := ih (n - 1) hlt _ hlen2 (by simp)
      refine ⟨t, by rw [hstep]; exact hc, ?_⟩
      rw [List.getLast?_cons_cons]
      rw [← hv]
      exact getLast_view_cons _ g rest rfl

theorem firstStart_none_iff (toks : List Tok) :
    firstStart toks = none ↔ hasStart toks = false := by
  induction toks with
  | nil => simp [firstStart, hasStart]
  | cons tok rest ih =>
    cases tok with
    | start tg ats => simp [firstStart, hasStart]
    | close tg =>
      rw [firstStart]
      rw [ih]
      simp [hasStart]
    | data s =>
      rw [firstStart]
      rw [ih]
      simp [hasStart]

/-- C5 (amended): the tree builder fails exactly when the input opens no
element or some close tag of a non-void tag arrives while the open-element
stack is empty (the unconditional `pop` of an empty stack raises
`IndexError`, so surplus close tags are not always tolerated); whenever it
succeeds, the returned root is the first element ever opened. -/
theorem C5_lex_root (toks : List Tok) :
    ((∃ t, lex toks = .ok t) ↔
      (hasStart toks = true ∧ underflow 0 toks = false)) ∧
    (∀ t, lex toks = .ok t → ∃ p, firstStart toks = some p ∧
        rootView t = (p.1, toAttrDict p.2)) := by
  have hinit : WFState ⟨[], RootSt.noRoot⟩ :=
    ⟨fun _ => rfl, fun h => RootSt.noConfusion h⟩
  obtain ⟨hE, hO⟩ := run_spec toks ⟨[], RootSt.noRoot⟩ hinit
  rcases hrun : toks.foldlM stepTok ⟨[], RootSt.noRoot⟩ with e | stf
  · have hlex : lex toks = .error e := by
      unfold lex
      rw [hrun]
      rfl
    have hu : underflow 0 toks = true := hE e hrun
    constructor
    · constructor
      · rintro ⟨t, ht⟩
        rw [hlex] at ht
        exact absurd ht (by simp)
      · rintro ⟨_, hu2⟩
        rw [hu] at hu2
        exact absurd hu2 (by simp)
    · intro t ht
      rw [hlex] at ht
      exact absurd ht (by simp)
  · obtain ⟨hu, hwff, hri⟩ := hO stf hrun
    have hri' : rootInfo stf =
        (firstStart toks).map (fun p => (p.1, toAttrDict p.2)) := by
      rw [hri]
      rfl
    cases hr : stf.root with
    | noRoot =>
      have hlex : lex toks = .error PErr.noRootError := by
        unfold lex
        rw [hrun]
        simp only [Bind.bind, Except.bind]
        rw [hr]
      have hfs : firstStart toks = none := by
        have hnone : rootInfo stf = none := by simp [rootInfo, hr]
        rw [hnone] at hri'
        rcases hf : firstStart toks with _ | p
        · rfl
        · rw [hf] at hri'
          exact absurd hri'.symm (by simp)
      have hhs : hasStart toks = false := (firstStart_none_iff toks).mp hfs
      constructor
      · constructor
        · rintro ⟨t, ht⟩
          rw [hlex] at ht
          exact absurd ht (by simp)
        · rintro ⟨hh, _⟩
          rw [hhs] at hh
          exact absurd hh (by simp)
      · intro t ht
        rw [hlex] at ht
        exact absurd ht (by simp)
    | done t0 =>
      have hlex : lex toks = .ok t0 := by
        unfold lex
        rw [hrun]
        simp only [Bind.bind, Except.bind]
        rw [hr]
        rfl
      have hfs : (firstStart toks).map (fun p => (p.1, toAttrDict p.2)) =
          some (rootView t0) := by
        rw [← hri']
        simp [rootInfo, hr]
      have hstart : hasStart toks = true := by
        rcases hf : firstStart toks with _ | p
        · rw [hf] at hfs
          exact absurd hfs (by simp)
        · by_contra hh
          have hh2 : hasStart toks = false := by
            cases hx : hasStart toks
            · rfl
            · exact absurd hx hh
          rw [(firstStart_none_iff toks).mpr hh2] at hf
          exact absurd hf (by simp)
      constructor
      · exact ⟨fun _ => ⟨hstart, hu⟩, fun _ => ⟨t0, hlex⟩⟩
      · intro t ht
        rw [hlex] at ht
        injection ht with ht
        subst ht
        rcases hf : firstStart toks with _ | p
        · rw [hf] at hfs
          exact absurd hfs (by simp)
        · rw [hf] at hfs
          simp only [Option.map_some'] at hfs
          injection hfs with hfs
          exact ⟨p, rfl, hfs.symm⟩
    | inStack =>
      have hfn : stf.frames ≠ [] := hwff.2 hr
      obtain ⟨t0, hc, hv⟩ := collapse_view stf.frames.length stf.frames rfl hfn
      have hlex : lex toks = .ok t0 := by
        unfold lex
        rw [hrun]
        simp only [Bind.bind, Except.bind]
        rw [hr, hc]
        rfl
      have hfs : (firstStart toks).map (fun p => (p.1, toAttrDict p.2)) =
          some (rootView t0) := by
        rw [← hri']
        simp only [rootInfo, hr]
        exact hv
      have hstart : hasStart toks = true := by
        rcases hf : firstStart toks with _ | p
        · rw [hf] at hfs
          exact absurd hfs (by simp)
        · by_contra hh
          have hh2 : hasStart toks = false := by
            cases hx : hasStart toks
            · rfl
            · exact absurd hx hh
          rw [(firstStart_none_iff toks).mpr hh2] at hf
          exact absurd hf (by simp)
      constructor
      · exact ⟨fun _ => ⟨hstart, hu⟩, fun _ => ⟨t0, hlex⟩⟩
      · intro t ht
        rw [hlex] at ht
        injection ht with ht
        subst ht
        rcases hf : firstStart toks with _ | p
        · rw [hf] at hfs
          exact absurd hfs (by simp)
        · rw [hf] at hfs
          simp only [Option.map_some'] at hfs
          injection hfs with hfs
          exact ⟨p, rfl, hfs.symm⟩

/-- C5 counterexample: `"</p><p>hi</p>"` opens an element, yet `lex` fails —
the surplus close tag pops an empty stack (`IndexError`) instead of being
tolerated — refuting "fails if and only if the input opens no element". -/
theorem C5_counterexample :
    lex [Tok.close (lc "p"), Tok.start (lc "p") [], Tok.data (lc "hi"),
        Tok.close (lc "p")] = .error PErr.indexError ∧
    hasStart [Tok.close (lc "p"), Tok.start (lc "p") [], Tok.data (lc "hi"),
        Tok.close (lc "p")] = true := by
  constructor
  · rfl
  · rfl

/-- C5 witness: on `"<p>hi</p>"` the builder succeeds and returns the `p`
element opened first. -/
theorem C5_lex_root_witness :
    (∃ t, lex [Tok.start (lc "p") [], Tok.data (lc "hi"), Tok.close (lc "p")] = .ok t) ∧
    ∃ p, firstStart [Tok.start (lc "p") [], Tok.data (lc "hi"), Tok.close (lc "p")] =
        some p ∧
      rootView (NTree.elem (lc "p") [] [] [NTree.text (lc "hi")]) =
        (p.1, toAttrDict p.2) := by
  constructor
  · exact ((C5_lex_root _).1).mpr ⟨rfl, rfl⟩
  · exact (C5_lex_root _).2 (NTree.elem (lc "p") [] [] [NTree.text (lc "hi")]) rfl

/-! ### C1: class rules beat tag rules after the cascade sort -/

/-- C1: when a tag rule and a class rule both match an element and declare
the same (non-`font-size`) property with truthy values, cascade resolution
(`style` applied to the rule list stably sorted by `cascade_priority`)
leaves the class rule's value in the computed-style map, in either
stylesheet order. -/
theorem C1_class_beats_tag (t c p vt vc : List Char) (attrs : AttrMap)
    (st0 : StyleMap) (rules : List Rule)
    (hp : p ≠ lc "font-size") (hvt : vt ≠ []) (hvc : vc ≠ [])
    (hcls : attrGet attrs (lc "class") = some c) (hc : c ≠ [])
    (hinl : attrGet attrs (lc "style") = none)
    (hr : rules = [(Sel.tag t, [(p, vt)]), (Sel.cls c, [(p, vc)])] ∨
          rules = [(Sel.cls c, [(p, vc)]), (Sel.tag t, [(p, vt)])]) :
    ∃ st3, resolve (NTree.elem t attrs st0 []) rules =
        .ok (NTree.elem t attrs st3 []) ∧ dlookup st3 p = some vc := by
  have hsort : sortRules rules =
      [(Sel.tag t, [(p, vt)]), (Sel.cls c, [(p, vc)])] := by
    rcases hr with h | h <;> subst h <;>
      simp [sortRules, insertByPriority, cascade_priority, Sel.priority]
  have hmt : matchesSel (Sel.tag t) (NodeView.elemv t attrs) [] = true := by
    simp [matchesSel]
  have hmc : matchesSel (Sel.cls c) (NodeView.elemv t attrs) [] = true := by
    simp [matchesSel, hcls, hc]
  have hcs : ∀ v : List Char, compute_style none p v = .ok (some v) := by
    intro v
    simp [compute_style, hp]
  obtain ⟨st1, hst1⟩ : ∃ st1, inheritStep none st0 = .ok st1 := ⟨_, rfl⟩
  have hb1 : applyBody none [(p, vt)] st1 = .ok (dupdate st1 p vt) := by
    simp only [applyBody, List.foldlM_cons, List.foldlM_nil, hcs,
      Bind.bind, Except.bind]
    simp [hvt, pure, Except.pure]
  have hb2 : applyBody none [(p, vc)] (dupdate st1 p vt) =
      .ok (dupdate (dupdate st1 p vt) p vc) := by
    simp only [applyBody, List.foldlM_cons, List.foldlM_nil, hcs,
      Bind.bind, Except.bind]
    simp [hvc, pure, Except.pure]
  have har : applyRules (NodeView.elemv t attrs) [] none
      [(Sel.tag t, [(p, vt)]), (Sel.cls c, [(p, vc)])] st1 =
      .ok (dupdate (dupdate st1 p vt) p vc) := by
    simp only [applyRules, List.foldlM_cons, List.foldlM_nil, hmt, hmc,
      if_pos, hb1, Bind.bind, Except.bind, hb2]
    rfl
  have hai : applyInline attrs none (dupdate (dupdate st1 p vt) p vc) =
      .ok (dupdate (dupdate st1 p vt) p vc) := by
    simp [applyInline, hinl, pure, Except.pure]
  refine ⟨dupdate (dupdate st1 p vt) p vc, ?_, ?_⟩
  · unfold resolve style
    rw [hsort]
    simp only [styleNode, nodeStyle, styleChildren, hst1, har, hai,
      Bind.bind, Except.bind, pure, Except.pure]
  · simp

/-- C1 witness: the spec scenario — stylesheet
`p \x7b color: red; \x7d .warn \x7b color: orange; \x7d` on
`<p class='warn'>hi</p>` resolves `color` to `orange`. -/
theorem C1_class_beats_tag_witness :
    ∃ st3, resolve
        (NTree.elem (lc "p") [(lc "class", some (lc "warn"))] [] [])
        [(Sel.tag (lc "p"), [(lc "color", lc "red")]),
         (Sel.cls (lc "warn"), [(lc "color", lc "orange")])] =
      .ok (NTree.elem (lc "p") [(lc "class", some (lc "warn"))] st3 []) ∧
      dlookup st3 (lc "color") = some (lc "orange") :=
  C1_class_beats_tag (lc "p") (lc "warn") (lc "color") (lc "red")
    (lc "orange") [(lc "class", some (lc "warn"))] [] _
    (by decide) (by decide) (by decide) (by decide) (by decide) (by decide)
    (Or.inl rfl)

/-! ### C6: percentage font-size against the parent, with `str(float)` -/

/-- Parent computed style with resolved `font-size: 20px` (other inherited
properties at their defaults). -/
def c6Parent : StyleMap :=
  [(lc "font-size", lc "20px"), (lc "font-style", lc "normal"),
   (lc "font-weight", lc "normal"), (lc "color", lc "black"),
   (lc "font-family", lc "Georgia")]

/-- The `div` of the C6 scenario: inline `style='font-size: 50%'`. -/
def c6Div : NTree :=
  NTree.elem (lc "div") [(lc "style", some (lc "font-size: 50%"))] []
    [NTree.text (lc "x")]

/-- Its computed style after resolution. -/
def c6Style : StyleMap :=
  [(lc "font-size", lc "10.0px"), (lc "font-style", lc "normal"),
   (lc "font-weight", lc "normal"), (lc "color", lc "black"),
   (lc "font-family", lc "Georgia")]

theorem c6_pyFloat50 : pyFloat (dropRight (lc "50%") 1) = .ok 50 := by
  simp +decide [pyFloat, pyFloatMag, dropRight, lc, List.takeWhile,
    List.dropWhile, natValC, digitVal]

theorem c6_pyFloat20 : pyFloat (dropRight (lc "20px") 2) = .ok 20 := by
  simp +decide [pyFloat, pyFloatMag, dropRight, lc, List.takeWhile,
    List.dropWhile, natValC, digitVal]

theorem c6_pyFloatStr10 : pyFloatStr 10 = lc "10.0" := by
  simp +decide [pyFloatStr, pyFloatCore, minK, decRender, natDecChars,
    natDigitsRev, digChar, lc]

theorem c6_cssBody :
    CSSParser.cssBody (lc "font-size: 50%") = [(lc "font-size", lc "50%")] := by
  simp +decide [CSSParser.cssBody, CSSParser.bodyLoop, CSSParser.pairFn,
    CSSParser.wordFn, CSSParser.whitespaceFn, CSSParser.literalFn,
    CSSParser.ignoreUntil, CSSParser.wordChar, CSSParser.wordExtra, lc,
    pyLower, dupdate, rbrace, List.takeWhile, List.dropWhile]

theorem c6_compute :
    compute_style (some c6Parent) (lc "font-size") (lc "50%") =
      .ok (some (lc "10.0px")) := by
  have h3 : (50 : ℚ) / 100 * 20 = 10 := by norm_num
  simp +decide [compute_style, c6Parent, dlookup, c6_pyFloat50, c6_pyFloat20,
    Bind.bind, Except.bind, h3, c6_pyFloatStr10]

theorem c6_styleNode : styleNode (some c6Parent) [] [] c6Div =
    .ok (NTree.elem (lc "div") [(lc "style", some (lc "font-size: 50%"))]
      c6Style [NTree.text (lc "x")]) := by
  have hinh : inheritStep (some c6Parent) [] = .ok c6Parent := by
    simp only [inheritStep, INHERITED_PROPERTIES, List.foldlM_cons,
      List.foldlM_nil, Bind.bind, Except.bind]
    simp +decide [c6Parent, dlookup, dupdate, lc, pure, Except.pure]
  have hbody : applyBody (some c6Parent) [(lc "font-size", lc "50%")]
      c6Parent = .ok c6Style := by
    simp only [applyBody, List.foldlM_cons, List.foldlM_nil, c6_compute,
      Bind.bind, Except.bind]
    simp +decide [c6Parent, c6Style, dupdate, lc, pure, Except.pure]
  have hinl : applyInline [(lc "style", some (lc "font-size: 50%"))]
      (some c6Parent) c6Parent = .ok c6Style := by
    have ha : attrGet [(lc "style", some (lc "font-size: 50%"))] (lc "style") =
        some (lc "font-size: 50%") := by decide
    simp only [applyInline, ha]
    rw [if_neg (by decide), c6_cssBody]
    exact hbody
  simp only [c6Div, styleNode, nodeStyle, hinh, Bind.bind, Except.bind]
  simp only [applyRules, List.foldlM_nil, pure, Except.pure, hinl]
  simp [styleChildren, pure, Except.pure, Bind.bind, Except.bind]

/-- C6 (amended): the div with inline `font-size: 50%` under a parent with
resolved `font-size: 20px` gets computed font-size `"10.0px"` — the value
is `str(0.5 * 20.0) + "px"` and Python renders the float `10.0` with a
trailing `.0`, so the stored string is `"10.0px"`, not `"10px"`. -/
theorem C6_percent_font_size :
    ∃ st, styleNode (some c6Parent) [] [] c6Div =
        .ok (NTree.elem (lc "div") [(lc "style", some (lc "font-size: 50%"))]
          st [NTree.text (lc "x")]) ∧
      dlookup st (lc "font-size") = some (lc "10.0px") :=
  ⟨c6Style, c6_styleNode, by decide⟩

/-- C6 counterexample: in the same scenario the computed font-size is not
the string `"10px"` the claim promises. -/
theorem C6_counterexample :
    ∃ st, styleNode (some c6Parent) [] [] c6Div =
        .ok (NTree.elem (lc "div") [(lc "style", some (lc "font-size: 50%"))]
          st [NTree.text (lc "x")]) ∧
      dlookup st (lc "font-size") ≠ some (lc "10px") :=
  ⟨c6Style, c6_styleNode, by decide⟩

/-! ### C4: when the style pass fails, and when it cannot -/

/-- `float(...)` succeeded. -/
def okQ : Except PErr ℚ → Bool
  | .ok _ => true
  | .error _ => false

theorem okQ_true (e : Except PErr ℚ) (h : okQ e = true) : ∃ q, e = .ok q := by
  cases e with
  | error err => exact absurd h (by simp [okQ])
  | ok q => exact ⟨q, rfl⟩

/-- A declaration the style pass can always compute: a `font-size` value
must be a parseable `px` length, a parseable percentage, or carry neither
unit (then `compute_style` discards it); other properties are unrestricted. -/
def GoodDeclB (p v : List Char) : Bool :=
  if p = lc "font-size" then
    if endsWith v (lc "px") then okQ (pyFloat (dropRight v 2))
    else if endsWith v (lc "%") then okQ (pyFloat (dropRight v 1))
    else true
  else true

def GoodBodyB (body : List (List Char × List Char)) : Bool :=
  body.all fun pv => GoodDeclB pv.1 pv.2

def GoodRulesB (rules : List Rule) : Bool :=
  rules.all fun r => GoodBodyB r.2

/-- The inline `style` attribute, when truthy, parses to good declarations. -/
def GoodAttrsB (attrs : AttrMap) : Bool :=
  match attrGet attrs (lc "style") with
  | some v => if v = [] then true else GoodBodyB (CSSParser.cssBody v)
  | none => true

mutual
/-- Every element of the tree has a good inline `style` attribute. -/
def GoodTreeB : NTree → Bool
  | .text _ => true
  | .elem _ attrs _ kids => GoodAttrsB attrs && GoodKidsB kids
def GoodKidsB : List NTree → Bool
  | [] => true
  | c :: rest => GoodTreeB c && GoodKidsB rest
end

/-- A resolved `font-size` value: ends in `px` and the prefix is a decimal
numeral whose value is an exact decimal (so `str(float)` round-trips). -/
def GoodPxVal (v : List Char) : Prop :=
  endsWith v (lc "px") = true ∧ ∃ q, pyFloat (dropRight v 2) = .ok q ∧ GoodQ q

/-- Invariant of every computed-style dictionary the pass produces: the five
inherited properties are present and `font-size` holds a good `px` value. -/
def GoodPS (st : StyleMap) : Prop :=
  (∀ pd ∈ INHERITED_PROPERTIES, (dlookup st pd.1).isSome = true) ∧
  ∃ v, dlookup st (lc "font-size") = some v ∧ GoodPxVal v

/-- `font-size` only. -/
def GoodFS (st : StyleMap) : Prop :=
  ∃ v, dlookup st (lc "font-size") = some v ∧ GoodPxVal v

theorem goodPxVal_16px : GoodPxVal (lc "16px") := by
  refine ⟨by decide, 16, ?_, 0, by norm_num⟩
  simp +decide [pyFloat, pyFloatMag, dropRight, lc, List.takeWhile,
    List.dropWhile, natValC, digitVal]

/-- C4 counterexample: a single rule declaring `font-size: a%` on a bare
`<p>` makes the style pass raise `ValueError` — the unguarded
`float(value[:-1])` in `compute_style` — instead of skipping the
declaration. -/
theorem C4_counterexample :
    style (NTree.elem (lc "p") [] [] [])
        [(Sel.tag (lc "p"), [(lc "font-size", lc "a%")])] =
      .error PErr.valueError := by
  obtain ⟨st1, hst1⟩ : ∃ st1, inheritStep none [] = .ok st1 := ⟨_, rfl⟩
  have hpf : pyFloat (dropRight (lc "a%") 1) = .error PErr.valueError := by
    simp +decide [pyFloat, pyFloatMag, dropRight, lc, List.takeWhile,
      List.dropWhile]
  have hcs : compute_style none (lc "font-size") (lc "a%") =
      .error PErr.valueError := by
    simp +decide [compute_style, hpf, Bind.bind, Except.bind]
  have hmt : matchesSel (Sel.tag (lc "p")) (NodeView.elemv (lc "p") []) [] =
      true := by
    simp [matchesSel]
  have hb : applyBody none [(lc "font-size", lc "a%")] st1 =
      .error PErr.valueError := by
    simp only [applyBody, List.foldlM_cons, List.foldlM_nil, hcs,
      Bind.bind, Except.bind]
  have har : applyRules (NodeView.elemv (lc "p") []) [] none
      [(Sel.tag (lc "p"), [(lc "font-size", lc "a%")])] st1 =
      .error PErr.valueError := by
    simp only [applyRules, List.foldlM_cons, List.foldlM_nil, hmt, if_pos,
      hb, Bind.bind, Except.bind]
  simp only [style, styleNode, nodeStyle, hst1, har, Bind.bind, Except.bind]

theorem compute_style_ok (ps : Option StyleMap)
    (hps : ∀ m, ps = some m → GoodFS m) (p v : List Char)
    (hd : GoodDeclB p v = true) :
    ∃ c, compute_style ps p v = .ok c ∧
      ∀ u, p = lc "font-size" → c = some u → GoodPxVal u := by
  by_cases hp : p = lc "font-size"
  · subst hp
    by_cases hpx : endsWith v (lc "px") = true
    · have hd' : okQ (pyFloat (dropRight v 2)) = true := by
        simpa [GoodDeclB, hpx] using hd
      obtain ⟨q, hq⟩ := okQ_true _ hd'
      refine ⟨some v, by simp [compute_style, hpx], ?_⟩
      intro u _ hu
      injection hu with hu
      subst hu
      exact ⟨hpx, q, hq, pyFloat_goodQ _ _ hq⟩
    · by_cases hpc : endsWith v (lc "%") = true
      · have hd' : okQ (pyFloat (dropRight v 1)) = true := by
          simpa [GoodDeclB, hpx, hpc] using hd
        obtain ⟨q1, hq1⟩ := okQ_true _ hd'
        have hgq1 := pyFloat_goodQ _ _ hq1
        rcases ps with _ | m
        · obtain ⟨hend16, q2, hq2, hgq2⟩ := goodPxVal_16px
          refine ⟨some (pyFloatStr (q1 / 100 * q2) ++ lc "px"), ?_, ?_⟩
          · simp [compute_style, hpx, hpc, hq1, hq2, Bind.bind, Except.bind]
          · intro u _ hu
            injection hu with hu
            subst hu
            refine ⟨endsWith_append _ _, q1 / 100 * q2, ?_,
              goodQ_div100_mul _ _ hgq1 hgq2⟩
            rw [show (2 : ℕ) = (lc "px").length from rfl, dropRight_append]
            exact pyFloat_pyFloatStr _ (goodQ_div100_mul _ _ hgq1 hgq2)
        · obtain ⟨w, hw, hwend, q2, hq2, hgq2⟩ := hps m rfl
          refine ⟨some (pyFloatStr (q1 / 100 * q2) ++ lc "px"), ?_, ?_⟩
          · simp [compute_style, hpx, hpc, hw, hq1, hq2, Bind.bind, Except.bind]
          · intro u _ hu
            injection hu with hu
            subst hu
            refine ⟨endsWith_append _ _, q1 / 100 * q2, ?_,
              goodQ_div100_mul _ _ hgq1 hgq2⟩
            rw [show (2 : ℕ) = (lc "px").length from rfl, dropRight_append]
            exact pyFloat_pyFloatStr _ (goodQ_div100_mul _ _ hgq1 hgq2)
      · refine ⟨none, by simp [compute_style, hpx, hpc], ?_⟩
        intro u _ hu
        exact absurd hu (by simp)
  · exact ⟨some v, by simp [compute_style, hp], fun u hu _ => absurd hu hp⟩

theorem applyBody_ok (ps : Option StyleMap)
    (hps : ∀ m, ps = some m → GoodFS m) :
    ∀ (body : List (List Char × List Char)) (st : StyleMap),
      GoodBodyB body = true → GoodFS st →
      ∃ st', applyBody ps body st = .ok st' ∧ GoodFS st' ∧
        ∀ k, (dlookup st k).isSome = true → (dlookup st' k).isSome = true := by
  intro body
  induction body with
  | nil => exact fun st _ hst => ⟨st, rfl, hst, fun _ h => h⟩
  | cons pv rest ih =>
    intro st hb hst
    simp only [GoodBodyB, List.all_cons, Bool.and_eq_true] at hb
    obtain ⟨c, hc, hcg⟩ := compute_style_ok ps hps pv.1 pv.2 hb.1
    cases c with
    | none =>
      obtain ⟨st', h1, h2, h3⟩ := ih st hb.2 hst
      refine ⟨st', ?_, h2, h3⟩
      simp only [applyBody, List.foldlM_cons, Bind.bind, Except.bind, hc,
        pure, Except.pure]
      exact h1
    | some u =>
      by_cases hu : u = []
      · subst hu
        obtain ⟨st', h1, h2, h3⟩ := ih st hb.2 hst
        refine ⟨st', ?_, h2, h3⟩
        simp only [applyBody, List.foldlM_cons, Bind.bind, Except.bind, hc,
          if_pos rfl, pure, Except.pure]
        exact h1
      · have hst2 : GoodFS (dupdate st pv.1 u) := by
          by_cases hfs : pv.1 = lc "font-size"
          · exact ⟨u, by simp [hfs], hcg u hfs rfl⟩
          · obtain ⟨w, hw, hwg⟩ := hst
            exact ⟨w, by simp [hfs, hw], hwg⟩
        obtain ⟨st', h1, h2, h3⟩ := ih (dupdate st pv.1 u) hb.2 hst2
        refine ⟨st', ?_, h2, ?_⟩
        · simp only [applyBody, List.foldlM_cons, Bind.bind, Except.bind, hc,
            if_neg hu, pure, Except.pure]
          exact h1
        · intro k hk
          apply h3
          simp only [dlookup_dupdate]
          by_cases hpk : pv.1 = k
          · simp [hpk]
          · simp [hpk, hk]

theorem applyRules_ok (nv : NodeView) (anc : List NodeView)
    (ps : Option StyleMap) (hps : ∀ m, ps = some m → GoodFS m) :
    ∀ (rules : List Rule) (st : StyleMap),
      GoodRulesB rules = true → GoodFS st →
      ∃ st', applyRules nv anc ps rules st = .ok st' ∧ GoodFS st' ∧
        ∀ k, (dlookup st k).isSome = true → (dlookup st' k).isSome = true := by
  intro rules
  induction rules with
  | nil => exact fun st _ hst => ⟨st, rfl, hst, fun _ h => h⟩
  | cons r rest ih =>
    intro st hr hst
    simp only [GoodRulesB, List.all_cons, Bool.and_eq_true] at hr
    by_cases hm : matchesSel r.1 nv anc = true
    · obtain ⟨st2, h1, h2, h3⟩ := applyBody_ok ps hps r.2 st hr.1 hst
      obtain ⟨st', g1, g2, g3⟩ := ih st2 hr.2 h2
      refine ⟨st', ?_, g2, fun k hk => g3 k (h3 k hk)⟩
      simp only [applyRules, List.foldlM_cons, Bind.bind, Except.bind, hm,
        if_pos, h1]
      exact g1
    · obtain ⟨st', g1, g2, g3⟩ := ih st hr.2 hst
      refine ⟨st', ?_, g2, g3⟩
      simp only [applyRules, List.foldlM_cons, Bind.bind, Except.bind, hm,
        if_false, Bool.false_eq_true, pure, Except.pure]
      exact g1

theorem applyInline_ok (attrs : AttrMap) (ps : Option StyleMap)
    (hps : ∀ m, ps = some m → GoodFS m) (st : StyleMap)
    (ha : GoodAttrsB attrs = true) (hst : GoodFS st) :
    ∃ st', applyInline attrs ps st = .ok st' ∧ GoodFS st' ∧
      ∀ k, (dlookup st k).isSome = true → (dlookup st' k).isSome = true := by
  unfold applyInline
  unfold GoodAttrsB at ha
  rcases hg : attrGet attrs (lc "style") with _ | v
  · exact ⟨st, rfl, hst, fun _ h => h⟩
  · rw [hg] at ha
    have ha' : (if v = [] then true else GoodBodyB (CSSParser.cssBody v)) = true := ha
    by_cases hv : v = []
    · subst hv
      exact ⟨st, rfl, hst, fun _ h => h⟩
    · have ha'' : GoodBodyB (CSSParser.cssBody v) = true := by
        rwa [if_neg hv] at ha'
      obtain ⟨st', h1, h2, h3⟩ := applyBody_ok ps hps (CSSParser.cssBody v) st ha'' hst
      refine ⟨st', ?_, h2, h3⟩
      show (if v = [] then pure st else applyBody ps (CSSParser.cssBody v) st) =
        Except.ok st'
      rw [if_neg hv]
      exact h1

theorem inheritStep_ok (ps : Option StyleMap)
    (hps : ∀ m, ps = some m → GoodPS m) (st0 : StyleMap) :
    ∃ st1, inheritStep ps st0 = .ok st1 ∧ GoodPS st1 := by
  rcases ps with _ | m
  · refine ⟨_, rfl, ?_, lc "16px", ?_, goodPxVal_16px⟩
    · intro pd hpd
      simp only [INHERITED_PROPERTIES, List.mem_cons, List.not_mem_nil,
        or_false] at hpd
      rcases hpd with h | h | h | h | h <;> subst h <;>
        simp +decide [dlookup_dupdate]
    · simp +decide [dlookup_dupdate]
  · obtain ⟨hkeys, w, hw, hwg⟩ := hps m rfl
    obtain ⟨v2, hv2⟩ := Option.isSome_iff_exists.mp
      (hkeys (lc "font-style", lc "normal") (by simp [INHERITED_PROPERTIES]))
    obtain ⟨v3, hv3⟩ := Option.isSome_iff_exists.mp
      (hkeys (lc "font-weight", lc "normal") (by simp [INHERITED_PROPERTIES]))
    obtain ⟨v4, hv4⟩ := Option.isSome_iff_exists.mp
      (hkeys (lc "color", lc "black") (by simp [INHERITED_PROPERTIES]))
    obtain ⟨v5, hv5⟩ := Option.isSome_iff_exists.mp
      (hkeys (lc "font-family", lc "Georgia") (by simp [INHERITED_PROPERTIES]))
    refine ⟨dupdate (dupdate (dupdate (dupdate (dupdate st0
        (lc "font-size") w) (lc "font-style") v2) (lc "font-weight") v3)
        (lc "color") v4) (lc "font-family") v5, ?_, ?_, w, ?_, hwg⟩
    · simp only [inheritStep, INHERITED_PROPERTIES, List.foldlM_cons,
        List.foldlM_nil, Bind.bind, Except.bind, hw, hv2, hv3, hv4, hv5,
        pure, Except.pure]
    · intro pd hpd
      simp only [INHERITED_PROPERTIES, List.mem_cons, List.not_mem_nil,
        or_false] at hpd
      rcases hpd with h | h | h | h | h <;> subst h <;>
        simp +decide [dlookup_dupdate]
    · simp +decide [dlookup_dupdate]

theorem nodeStyle_ok (ps : Option StyleMap) (anc : List NodeView)
    (rules : List Rule) (tg : List Char) (attrs : AttrMap) (st0 : StyleMap)
    (hps : ∀ m, ps = some m → GoodPS m)
    (hrules : GoodRulesB rules = true) (hattrs : GoodAttrsB attrs = true) :
    ∃ st3, nodeStyle ps anc rules tg attrs st0 = .ok st3 ∧ GoodPS st3 := by
  obtain ⟨st1, h1, hg1⟩ := inheritStep_ok ps hps st0
  have hps' : ∀ m, ps = some m → GoodFS m := fun m hm => (hps m hm).2
  obtain ⟨st2, h2, hg2, hk2⟩ := applyRules_ok (NodeView.elemv tg attrs) anc ps
    hps' rules st1 hrules hg1.2
  obtain ⟨st3, h3, hg3, hk3⟩ := applyInline_ok attrs ps hps' st2 hattrs hg2
  refine ⟨st3, ?_, fun pd hpd => hk3 pd.1 (hk2 pd.1 (hg1.1 pd hpd)), hg3⟩
  simp only [nodeStyle, h1, h2, h3, Bind.bind, Except.bind]

mutual
theorem styleNode_ok :
    ∀ (t : NTree) (ps : Option StyleMap) (anc : List NodeView)
      (rules : List Rule), (∀ m, ps = some m → GoodPS m) →
      GoodRulesB rules = true → GoodTreeB t = true →
      ∃ t', styleNode ps anc rules t = .ok t'
  | NTree.text s, _, _, _, _, _, _ => ⟨NTree.text s, rfl⟩
  | NTree.elem tg attrs st0 kids, ps, anc, rules, hps, hr, ht => by
    have hsplit : GoodAttrsB attrs = true ∧ GoodKidsB kids = true := by
      simpa [GoodTreeB, Bool.and_eq_true] using ht
    obtain ⟨st3, h3, hg3⟩ :=
      nodeStyle_ok ps anc rules tg attrs st0 hps hr hsplit.1
    obtain ⟨kids2, hk⟩ := styleChildren_ok kids (some st3)
      (NodeView.elemv tg attrs :: anc) rules
      (fun m hm => by rw [← Option.some.inj hm]; exact hg3) hr hsplit.2
    exact ⟨NTree.elem tg attrs st3 kids2,
      by simp only [styleNode, h3, hk, Bind.bind, Except.bind, pure,
        Except.pure]⟩
  termination_by t _ _ _ _ _ _ => sizeOf t
theorem styleChildren_ok :
    ∀ (kids : List NTree) (ps : Option StyleMap) (anc : List NodeView)
      (rules : List Rule), (∀ m, ps = some m → GoodPS m) →
      GoodRulesB rules = true → GoodKidsB kids = true →
      ∃ ks, styleChildren ps anc rules kids = .ok ks
  | [], _, _, _, _, _, _ => ⟨[], rfl⟩
  | c :: rest, ps, anc, rules, hps, hr, hk => by
    have hsplit : GoodTreeB c = true ∧ GoodKidsB rest = true := by
      simpa [GoodKidsB, Bool.and_eq_true] using hk
    obtain ⟨rest2, hrest⟩ := styleChildren_ok rest ps anc rules hps hr hsplit.2
    cases c with
    | text s =>
      exact ⟨NTree.text s :: rest2,
        by simp only [styleChildren, hrest, Bind.bind, Except.bind, pure,
          Except.pure]⟩
    | elem tg attrs st0 kds =>
      obtain ⟨c2, hc2⟩ := styleNode_ok (NTree.elem tg attrs st0 kds) ps anc
        rules hps hr hsplit.1
      exact ⟨c2 :: rest2,
        by simp only [styleChildren, hc2, hrest, Bind.bind, Except.bind, pure,
          Except.pure]⟩
  termination_by kids _ _ _ _ _ _ => sizeOf kids
end

/-- C4 (amended): the style pass is not total — an unparseable percentage
`font-size` raises `ValueError` from the unguarded `float()` — but it never
fails when every matched declaration is computable: each `font-size` value
is a parseable `px` length or percentage, or carries neither unit (such a
declaration is discarded by `compute_style` returning `None`, leaving the
previous value in place, and resolution continues). -/
theorem C4_style_no_error (t : NTree) (rules : List Rule)
    (hrules : GoodRulesB rules = true) (ht : GoodTreeB t = true) :
    ∃ t', style t rules = .ok t' :=
  styleNode_ok t none [] rules (fun _ hm => Option.noConfusion hm) hrules ht

/-- C4 witness: a well-formed rule set on a small tree resolves without an
error. -/
theorem C4_style_no_error_witness :
    ∃ t', style (NTree.elem (lc "p") [] [] [NTree.text (lc "hi")])
        [(Sel.tag (lc "p"),
          [(lc "font-size", lc "32px"), (lc "color", lc "red")])] = .ok t' :=
  C4_style_no_error _ _ (by decide)
    (by simp +decide [GoodTreeB, GoodKidsB, GoodAttrsB, attrGet, dlookup])

/-! ### C8: idempotence of the style pass -/

/-- A state transformer on style dictionaries whose outcome does not depend
on the incoming dictionary: it fails uniformly, or performs a fixed list of
writes.  Every stage of `style` has this shape, because `compute_style`
reads only the parent's style, never the node's own. -/
def StIndep (g : StyleMap → Except PErr StyleMap) : Prop :=
  (∃ e, ∀ st, g st = .error e) ∨ (∃ ws, ∀ st, g st = .ok (dwrites ws st))

theorem stIndep_pure : StIndep (fun st => pure st) :=
  Or.inr ⟨[], fun st => rfl⟩

theorem stIndep_bind (g h : StyleMap → Except PErr StyleMap)
    (hg : StIndep g) (hh : StIndep h) : StIndep (fun st => g st >>= h) := by
  rcases hg with ⟨e, he⟩ | ⟨ws1, hw1⟩
  · exact Or.inl ⟨e, fun st => by
      simp only [he st, Bind.bind, Except.bind]⟩
  · rcases hh with ⟨e, he⟩ | ⟨ws2, hw2⟩
    · exact Or.inl ⟨e, fun st => by
        simp only [hw1 st, Bind.bind, Except.bind, he]⟩
    · exact Or.inr ⟨ws1 ++ ws2, fun st => by
        simp only [hw1 st, Bind.bind, Except.bind, hw2, dwrites_append]⟩

theorem stIndep_foldlM {α : Type} (f : StyleMap → α → Except PErr StyleMap) :
    ∀ (l : List α), (∀ a ∈ l, StIndep (fun st => f st a)) →
      StIndep (fun st => l.foldlM f st) := by
  intro l
  induction l with
  | nil => exact fun _ => Or.inr ⟨[], fun st => rfl⟩
  | cons a rest ih =>
    intro hf
    simp only [List.foldlM_cons]
    exact stIndep_bind _ _ (hf a (List.mem_cons_self a rest))
      (ih fun b hb => hf b (List.mem_cons_of_mem a hb))

theorem stIndep_dupdate (k v : List Char) :
    StIndep (fun st => .ok (dupdate st k v)) :=
  Or.inr ⟨[(k, v)], fun st => by simp⟩

theorem stIndep_inheritStep (ps : Option StyleMap) :
    StIndep (inheritStep ps) := by
  apply stIndep_foldlM
  intro pd _
  rcases ps with _ | pm
  · exact stIndep_dupdate pd.1 pd.2
  · rcases h : dlookup pm pd.1 with _ | v
    · exact Or.inl ⟨PErr.keyError, fun st => by simp [h]⟩
    · refine Or.inr ⟨[(pd.1, v)], fun st => by simp [h]⟩

theorem stIndep_applyBody (ps : Option StyleMap)
    (body : List (List Char × List Char)) :
    StIndep (fun st => applyBody ps body st) := by
  apply stIndep_foldlM
  intro pv _
  rcases h : compute_style ps pv.1 pv.2 with e | c
  · exact Or.inl ⟨e, fun st => by
      simp only [h, Bind.bind, Except.bind]⟩
  · rcases c with _ | u
    · exact Or.inr ⟨[], fun st => by
        simp only [h, Bind.bind, Except.bind, dwrites_nil, pure, Except.pure]⟩
    · by_cases hu : u = []
      · subst hu
        exact Or.inr ⟨[], fun st => by
          simp [h, Bind.bind, Except.bind, pure, Except.pure]⟩
      · exact Or.inr ⟨[(pv.1, u)], fun st => by
          simp only [h, Bind.bind, Except.bind, if_neg hu, pure, Except.pure,
            dwrites_cons, dwrites_nil]⟩

theorem stIndep_applyRules (nv : NodeView) (anc : List NodeView)
    (ps : Option StyleMap) (rules : List Rule) :
    StIndep (applyRules nv anc ps rules) := by
  apply stIndep_foldlM
  intro r _
  by_cases hm : matchesSel r.1 nv anc = true
  · simp only [hm, if_true]
    exact stIndep_applyBody ps r.2
  · simp only [hm, if_false, Bool.false_eq_true]
    exact stIndep_pure

theorem stIndep_applyInline (attrs : AttrMap) (ps : Option StyleMap) :
    StIndep (applyInline attrs ps) := by
  unfold applyInline
  rcases attrGet attrs (lc "style") with _ | v
  · exact stIndep_pure
  · by_cases hv : v = []
    · subst hv
      simp only [if_pos rfl]
      exact stIndep_pure
    · simp only [if_neg hv]
      exact stIndep_applyBody ps (CSSParser.cssBody v)

theorem stIndep_nodeStyle (ps : Option StyleMap) (anc : List NodeView)
    (rules : List Rule) (tg : List Char) (attrs : AttrMap) :
    StIndep (nodeStyle ps anc rules tg attrs) := by
  have h := stIndep_bind (inheritStep ps)
    (fun st1 => applyRules (NodeView.elemv tg attrs) anc ps rules st1 >>=
      applyInline attrs ps)
    (stIndep_inheritStep ps)
    (stIndep_bind _ _ (stIndep_applyRules (NodeView.elemv tg attrs) anc ps
      rules) (stIndep_applyInline attrs ps))
  exact h

theorem nodeStyle_idem (ps : Option StyleMap) (anc : List NodeView)
    (rules : List Rule) (tg : List Char) (attrs : AttrMap)
    (st0 st3 : StyleMap) (h : nodeStyle ps anc rules tg attrs st0 = .ok st3) :
    nodeStyle ps anc rules tg attrs st3 = .ok st3 := by
  rcases stIndep_nodeStyle ps anc rules tg attrs with ⟨e, he⟩ | ⟨ws, hw⟩
  · rw [he st0] at h
    exact absurd h (by simp)
  · rw [hw st0] at h
    injection h with h
    rw [hw st3, ← h, dwrites_dwrites, h]

mutual
theorem styleNode_idem :
    ∀ (t : NTree) (ps : Option StyleMap) (anc : List NodeView)
      (rules : List Rule) (t1 : NTree),
      styleNode ps anc rules t = .ok t1 → styleNode ps anc rules t1 = .ok t1
  | NTree.text s, ps, anc, rules, t1, h => by
    simp only [styleNode, pure, Except.pure] at h
    injection h with h
    subst h
    rfl
  | NTree.elem tg attrs st0 kids, ps, anc, rules, t1, h => by
    simp only [styleNode, Bind.bind, Except.bind] at h
    rcases hns : nodeStyle ps anc rules tg attrs st0 with e | st3 <;>
      rw [hns] at h
    · exact absurd h (by simp)
    · rcases hsc : styleChildren (some st3) (NodeView.elemv tg attrs :: anc)
          rules kids with e | kids2 <;>
        simp only [hsc] at h
      · exact absurd h (by simp)
      · simp only [pure, Except.pure] at h
        injection h with h
        subst h
        have h2 := nodeStyle_idem ps anc rules tg attrs st0 st3 hns
        have h3 := styleChildren_idem kids (some st3)
          (NodeView.elemv tg attrs :: anc) rules kids2 hsc
        simp only [styleNode, h2, h3, Bind.bind, Except.bind, pure,
          Except.pure]
  termination_by t _ _ _ _ _ => sizeOf t
theorem styleChildren_idem :
    ∀ (kids : List NTree) (ps : Option StyleMap) (anc : List NodeView)
      (rules : List Rule) (ks : List NTree),
      styleChildren ps anc rules kids = .ok ks →
      styleChildren ps anc rules ks = .ok ks
  | [], ps, anc, rules, ks, h => by
    simp only [styleChildren, pure, Except.pure] at h
    injection h with h
    subst h
    rfl
  | c :: rest, ps, anc, rules, ks, h => by
    cases c with
    | text s =>
      simp only [styleChildren, Bind.bind, Except.bind, pure,
        Except.pure] at h
      rcases hr : styleChildren ps anc rules rest with e | rest2 <;>
        simp only [hr] at h
      · exact absurd h (by simp)
      · injection h with h
        subst h
        have hrest := styleChildren_idem rest ps anc rules rest2 hr
        simp only [styleChildren, hrest, Bind.bind, Except.bind, pure,
          Except.pure]
    | elem tg attrs st0 kds =>
      simp only [styleChildren, Bind.bind, Except.bind] at h
      rcases hsn : styleNode ps anc rules (NTree.elem tg attrs st0 kds)
          with e | c2 <;>
        simp only [hsn] at h
      · exact absurd h (by simp)
      · rcases hr : styleChildren ps anc rules rest with e | rest2 <;>
          simp only [hr] at h
        · exact absurd h (by simp)
        · simp only [pure, Except.pure] at h
          injection h with h
          subst h
          have hidem := styleNode_idem (NTree.elem tg attrs st0 kds) ps anc
            rules c2 hsn
          have hrest := styleChildren_idem rest ps anc rules rest2 hr
          cases c2 with
          | text s2 =>
            simp only [styleChildren, hrest, Bind.bind, Except.bind, pure,
              Except.pure]
          | elem a b d e2 =>
            simp only [styleChildren, hidem, hrest, Bind.bind, Except.bind,
              pure, Except.pure]
  termination_by kids _ _ _ _ _ => sizeOf kids
end

/-- C8: running the cascade twice with the same rule list is idempotent —
if the first run maps the tree `t` to `t1`, a second run on `t1` returns
`t1` unchanged (every per-node write list depends only on the parent chain
and the rules, never on the node's current computed style, and replaying a
write list is idempotent). -/
theorem C8_style_idempotent (t t1 : NTree) (rules : List Rule)
    (h : style t rules = .ok t1) : style t1 rules = .ok t1 :=
  styleNode_idem t none [] rules t1 h

/-- C8 witness: styling a bare `<p>` with no rules, then styling the result
again, returns it unchanged. -/
theorem C8_style_idempotent_witness :
    style (NTree.elem (lc "p") []
        [(lc "font-size", lc "16px"), (lc "font-style", lc "normal"),
         (lc "font-weight", lc "normal"), (lc "color", lc "black"),
         (lc "font-family", lc "Georgia")] []) [] =
      .ok (NTree.elem (lc "p") []
        [(lc "font-size", lc "16px"), (lc "font-style", lc "normal"),
         (lc "font-weight", lc "normal"), (lc "color", lc "black"),
         (lc "font-family", lc "Georgia")] []) :=
  C8_style_idempotent (NTree.elem (lc "p") [] [] []) _ [] (by rfl)

/-! ### C2: inline layout ignores the computed styles -/

/-- A concrete font-measurement service for the scenarios: every character
10 units wide, ascent 10, descent 4, independent of the font descriptor. -/
def F0 : FontSys :=
  { measure := fun _ w => 10 * w.length, ascent := fun _ => 10,
    descent := fun _ => 4 }

/-- A paragraph whose resolved style asks for the `Arial` family. -/
def c2Tree : NTree :=
  NTree.elem (lc "p") [] [(lc "font-family", lc "Arial")]
    [NTree.text (lc "hi")]

theorem c2_pySplit : pySplit (lc "hi") = [lc "hi"] := by
  simp +decide [pySplit, List.dropWhile, List.takeWhile, lc]

theorem c2_display : (layoutInline F0 (initLState 800) c2Tree).display =
    [[⟨0, 5 / 2, lc "hi",
      ⟨16, lc "Georgia", lc "normal", lc "roman"⟩⟩]] := by
  simp +decide [layoutInline, c2Tree, recurseL, recurseKids, openTagL,
    closeTagL, textL, c2_pySplit, flushL, initLState, F0, VSTEP,
    List.foldl, sizesTable]
  norm_num [lc]

/-- C2 counterexample: the resolved `font-family` of the paragraph is
`Arial` (so the spec's font descriptor would carry family `Arial`), yet the
emitted `DrawText` uses family `Georgia` — `BlockLayout` builds fonts from
its tag-driven state (`self.family` is initialised to `"Georgia"` and never
changed) and never reads the node's computed-style map. -/
theorem C2_counterexample :
    ∃ d, (layoutInline F0 (initLState 800) c2Tree).display = [[d]] ∧
      d.font.family = lc "Georgia" ∧
      specFontFamily [(lc "font-family", lc "Arial")] = lc "Arial" ∧
      lc "Georgia" ≠ lc "Arial" :=
  ⟨_, c2_display, rfl, by decide, by decide⟩

mutual
theorem recurseL_mapStyles :
    ∀ (t : NTree) (F : FontSys) (st : LState) (f : StyleMap → StyleMap),
      recurseL F st (mapStyles f t) = recurseL F st t
  | NTree.text s, F, st, f => rfl
  | NTree.elem tg ats st0 kids, F, st, f => by
    simp only [mapStyles, recurseL]
    rw [recurseKids_mapStyles kids F (openTagL F st tg) f]
  termination_by t _ _ _ => sizeOf t
theorem recurseKids_mapStyles :
    ∀ (kids : List NTree) (F : FontSys) (st : LState)
      (f : StyleMap → StyleMap),
      recurseKids F st (mapStylesList f kids) = recurseKids F st kids
  | [], F, st, f => rfl
  | c :: rest, F, st, f => by
    simp only [mapStylesList, recurseKids]
    rw [recurseL_mapStyles c F st f, recurseKids_mapStyles rest F _ f]
  termination_by kids _ _ _ => sizeOf kids
end

/-- C2 (amended): inline layout derives every word's font from the
tag-driven `BlockLayout` state — weight/style from `b`/`strong`/`i`/`em`,
size from the `h1`–`h4` table, family fixed at `"Georgia"` — and ignores
the node's resolved computed-style map entirely: rewriting every
computed-style dictionary in the tree (by any function whatsoever) leaves
the whole layout output unchanged. -/
theorem C2_layout_ignores_style (F : FontSys) (st : LState)
    (f : StyleMap → StyleMap) (t : NTree) :
    layoutInline F st (mapStyles f t) = layoutInline F st t := by
  unfold layoutInline
  rw [recurseL_mapStyles t F st f]

/-! ### C3: what the line-breaker guarantees about emitted words -/

theorem dropLast_map {α β : Type} (f : α → β) :
    ∀ l : List α, (l.map f).dropLast = l.dropLast.map f
  | [] => rfl
  | [_] => rfl
  | a :: b :: l => by
    have ih := dropLast_map f (b :: l)
    show f a :: ((b :: l).map f).dropLast = f a :: ((b :: l).dropLast).map f
    rw [ih]

theorem mem_dropLast_or_getLast {α : Type} (l : List α) (a : α) (h : a ∈ l) :
    a ∈ l.dropLast ∨ l.getLast? = some a := by
  rcases List.eq_nil_or_concat l with rfl | ⟨l2, b, rfl⟩
  · simp at h
  · rw [List.concat_eq_append] at h ⊢
    rw [List.dropLast_concat, List.getLast?_concat]
    rcases List.mem_append.mp h with h2 | h2
    · exact Or.inl h2
    · simp only [List.mem_singleton] at h2
      exact Or.inr (by rw [h2])

theorem head?_concat {α : Type} (l : List α) (a b : α) :
    ((a :: l) ++ [b]).head? = some a := rfl

/-- A buffered word fits: its line-relative position plus its measured
width stays within the box width. -/
def fitE (F : FontSys) (w0 : ℚ) (en : ℚ × List Char × FontD) : Prop :=
  en.1 + (F.measure en.2.2 en.2.1 : ℚ) ≤ w0

/-- The no-flush slack the cursor accounting leaves behind the last
buffered word: position, width, trailing space and width again fit. -/
def slackE (F : FontSys) (w0 : ℚ) (en : ℚ × List Char × FontD) : Prop :=
  en.1 + (F.measure en.2.2 en.2.1 : ℚ) + (F.measure en.2.2 (lc " ") : ℚ) +
    (F.measure en.2.2 en.2.1 : ℚ) ≤ w0

/-- An emitted display group: every word but the last fits the box, and the
first word sits at the box's left edge. -/
def GoodGroup (F : FontSys) (x0 w0 : ℚ) (g : List DrawTextD) : Prop :=
  (∀ d ∈ g.dropLast, d.x - x0 + (F.measure d.font d.text : ℚ) ≤ w0) ∧
  (∀ d, g.head? = some d → d.x = x0)

/-- The layout-state invariant, without the slack clause for the last
buffered word (the form `flush` needs). -/
def LInvW (F : FontSys) (x0 w0 : ℚ) (st : LState) : Prop :=
  st.x = x0 ∧ st.width = w0 ∧
  (st.line = [] → st.cursor_x = 0) ∧
  (∀ en ∈ st.line.dropLast, fitE F w0 en) ∧
  (∀ en, st.line.head? = some en → en.1 = 0) ∧
  (∀ g ∈ st.display, GoodGroup F x0 w0 g)

/-- The full layout-state invariant. -/
def LInv (F : FontSys) (x0 w0 : ℚ) (st : LState) : Prop :=
  LInvW F x0 w0 st ∧
  (∀ en, st.line.getLast? = some en → slackE F w0 en)

theorem linv_init (F : FontSys) (w0 : ℚ) : LInv F 0 w0 (initLState w0) := by
  refine ⟨⟨rfl, rfl, fun _ => rfl, ?_, ?_, ?_⟩, ?_⟩ <;>
    simp [initLState]

theorem flushL_linv (F : FontSys) (x0 w0 : ℚ) (st : LState)
    (h : LInvW F x0 w0 st) : LInv F x0 w0 (flushL F st) := by
  obtain ⟨hx, hw, hc, hfit, hhead, hdisp⟩ := h
  rcases hl : st.line with _ | ⟨e, rest⟩
  · rw [flushL, hl]
    exact ⟨⟨hx, hw, hc, by rw [hl]; simp, by rw [hl]; simp, hdisp⟩,
      by rw [hl]; simp⟩
  · rw [flushL, hl]
    refine ⟨⟨hx, hw, fun _ => rfl, by simp, by simp, ?_⟩, by simp⟩
    intro g hg
    simp only [List.mem_append, List.mem_singleton] at hg
    rcases hg with hg | hg
    · exact hdisp g hg
    · subst hg
      constructor
      · intro d hd
        rw [dropLast_map] at hd
        simp only [List.mem_map] at hd
        obtain ⟨en, hen, hde⟩ := hd
        subst hde
        have hf : fitE F w0 en := hfit en (by rw [hl]; exact hen)
        simp only [hx]
        have : en.1 + x0 - x0 = en.1 := by ring
        rw [this]
        exact hf
      · intro d hd
        simp only [List.map_cons, List.head?_cons, Option.some.injEq] at hd
        subst hd
        have he : e.1 = 0 := hhead e (by rw [hl]; rfl)
        simp [he, hx]

theorem foldl_linv {α : Type} (F : FontSys) (x0 w0 : ℚ)
    (f : LState → α → LState)
    (hf : ∀ st a, LInv F x0 w0 st → LInv F x0 w0 (f st a)) :
    ∀ (ws : List α) (st : LState), LInv F x0 w0 st →
      LInv F x0 w0 (List.foldl f st ws)
  | [], _, h => h
  | a :: ws, st, h => foldl_linv F x0 w0 f hf ws (f st a) (hf st a h)

theorem textStep_linv (F : FontSys) (x0 w0 : ℚ) (font : FontD)
    (st : LState) (word : List Char) (h : LInv F x0 w0 st) :
    LInv F x0 w0
      (if st.cursor_x + (F.measure font word : ℚ) +
          (F.measure font (lc " ") : ℚ) + (F.measure font word : ℚ) >
          st.width then
        flushL F { st with
          line := st.line ++ [(st.cursor_x, word, font)],
          cursor_x := st.cursor_x + (F.measure font word : ℚ) +
            (F.measure font (lc " ") : ℚ) }
      else { st with
        line := st.line ++ [(st.cursor_x, word, font)],
        cursor_x := st.cursor_x + (F.measure font word : ℚ) +
          (F.measure font (lc " ") : ℚ) }) := by
  obtain ⟨⟨hx, hw, hc, hfit, hhead, hdisp⟩, hslack⟩ := h
  have hA : LInvW F x0 w0 { st with
      line := st.line ++ [(st.cursor_x, word, font)],
      cursor_x := st.cursor_x + (F.measure font word : ℚ) +
        (F.measure font (lc " ") : ℚ) } := by
    refine ⟨hx, hw, ?_, ?_, ?_, hdisp⟩
    · intro hnil
      exact absurd hnil (by simp)
    · intro en hen
      dsimp only at hen
      rw [List.dropLast_concat] at hen
      rcases mem_dropLast_or_getLast _ _ hen with h2 | h2
      · exact hfit en h2
      · have hs := hslack en h2
        unfold fitE
        unfold slackE at hs
        have h3 : (0 : ℚ) ≤ (F.measure en.2.2 en.2.1 : ℚ) := by positivity
        have h4 : (0 : ℚ) ≤ (F.measure en.2.2 (lc " ") : ℚ) := by positivity
        linarith
    · intro en hen
      dsimp only at hen
      rcases hl : st.line with _ | ⟨e, restl⟩
      · rw [hl] at hen
        simp only [List.nil_append, List.head?_cons, Option.some.injEq] at hen
        rw [← hen]
        exact hc hl
      · rw [hl, head?_concat] at hen
        injection hen with hen
        rw [← hen]
        exact hhead e (by rw [hl]; rfl)
  by_cases hov : st.cursor_x + (F.measure font word : ℚ) +
      (F.measure font (lc " ") : ℚ) + (F.measure font word : ℚ) > st.width
  · rw [if_pos hov]
    exact flushL_linv F x0 w0 _ hA
  · rw [if_neg hov]
    refine ⟨hA, ?_⟩
    intro en hen
    dsimp only at hen
    rw [List.getLast?_concat] at hen
    injection hen with hen
    rw [← hen]
    unfold slackE
    dsimp only
    rw [← hw]
    exact not_lt.mp hov

theorem textL_linv (F : FontSys) (x0 w0 : ℚ) (st : LState) (txt : List Char)
    (h : LInv F x0 w0 st) : LInv F x0 w0 (textL F st txt) := by
  unfold textL
  refine foldl_linv F x0 w0 _ ?_ (pySplit txt) st h
  intro st2 word h2
  exact textStep_linv F x0 w0
    { size := st.size, family := st.family, weight := st.weight,
      slant := st.style } st2 word h2

theorem openTagL_linv (F : FontSys) (x0 w0 : ℚ) (st : LState)
    (tag : List Char) (h : LInv F x0 w0 st) :
    LInv F x0 w0 (openTagL F st tag) := by
  unfold openTagL
  split
  · exact h
  split
  · exact h
  split
  · exact h
  split
  · exact flushL_linv F x0 w0 st h.1
  · exact h

theorem closeTagL_linv (F : FontSys) (x0 w0 : ℚ) (st : LState)
    (tag : List Char) (h : LInv F x0 w0 st) :
    LInv F x0 w0 (closeTagL F st tag) := by
  unfold closeTagL
  split
  · exact h
  split
  · exact h
  split
  · exact h
  split
  · exact flushL_linv F x0 w0 st h.1
  split
  · exact flushL_linv F x0 w0 st h.1
  · exact h

mutual
theorem recurseL_linv :
    ∀ (t : NTree) (F : FontSys) (x0 w0 : ℚ) (st : LState),
      LInv F x0 w0 st → LInv F x0 w0 (recurseL F st t)
  | NTree.text s, F, x0, w0, st, h => textL_linv F x0 w0 st s h
  | NTree.elem tg _ _ kids, F, x0, w0, st, h => by
    simp only [recurseL]
    exact closeTagL_linv F x0 w0 _ tg
      (recurseKids_linv kids F x0 w0 _ (openTagL_linv F x0 w0 st tg h))
  termination_by t _ _ _ _ _ => sizeOf t
theorem recurseKids_linv :
    ∀ (kids : List NTree) (F : FontSys) (x0 w0 : ℚ) (st : LState),
      LInv F x0 w0 st → LInv F x0 w0 (recurseKids F st kids)
  | [], _, _, _, _, h => h
  | c :: rest, F, x0, w0, st, h => by
    simp only [recurseKids]
    exact recurseKids_linv rest F x0 w0 _ (recurseL_linv c F x0 w0 st h)
  termination_by kids _ _ _ _ _ => sizeOf kids
end

theorem layoutInline_linv (F : FontSys) (x0 w0 : ℚ) (st : LState)
    (t : NTree) (h : LInv F x0 w0 st) :
    LInv F x0 w0 (layoutInline F st t) :=
  flushL_linv F x0 w0 _ (recurseL_linv t F x0 w0 st h).1

/-- C3 (amended): in every layout pass over a tree, every display group the
line-breaker emits satisfies: each word except the LAST of its line starts
at a horizontal offset that plus its measured width stays within the
container width, and the first word of every line sits at offset zero (so
a single word wider than the container is still placed, at offset zero).
The exception is any line's last word — not only a word alone on its line:
`text` appends the word to the line before checking overflow, so the word
that triggers a flush is emitted as the (possibly overflowing) last word of
a line that may hold other words. -/
theorem C3_line_breaking (F : FontSys) (w0 : ℚ) (t : NTree)
    (g : List DrawTextD)
    (hg : g ∈ (layoutInline F (initLState w0) t).display) :
    (∀ d ∈ g.dropLast, d.x + (F.measure d.font d.text : ℚ) ≤ w0) ∧
    (∀ d, g.head? = some d → d.x = 0) := by
  have h := (layoutInline_linv F 0 w0 (initLState w0) t (linv_init F w0)).1
  obtain ⟨hfit, hhead⟩ := h.2.2.2.2.2 g hg
  refine ⟨fun d hd => ?_, hhead⟩
  have := hfit d hd
  linarith

theorem c3_pySplit : pySplit (lc "aaaa bbbbbb") = [lc "aaaa", lc "bbbbbb"] := by
  simp +decide [pySplit, List.dropWhile, List.takeWhile, lc]

theorem c3_display :
    (layoutInline F0 (initLState 100)
        (NTree.text (lc "aaaa bbbbbb"))).display =
      [[⟨0, 5 / 2, lc "aaaa", ⟨16, lc "Georgia", lc "normal", lc "roman"⟩⟩,
        ⟨50, 5 / 2, lc "bbbbbb",
          ⟨16, lc "Georgia", lc "normal", lc "roman"⟩⟩]] := by
  simp +decide [layoutInline, recurseL, textL, c3_pySplit, flushL,
    initLState, F0, List.foldl]
  norm_num [lc]

/-- C3 counterexample: with container width 100 and a 10-per-character
font, `"aaaa bbbbbb"` emits one line holding TWO words whose second starts
at offset 50 with measured width 60 — offset plus width exceeds the
container width although the word is not alone on its line, because `text`
appends the word to the line buffer before the overflow check flushes. -/
theorem C3_counterexample :
    ∃ d1 d2, (layoutInline F0 (initLState 100)
        (NTree.text (lc "aaaa bbbbbb"))).display = [[d1, d2]] ∧
      d2.x + (F0.measure d2.font d2.text : ℚ) > 100 :=
  ⟨_, _, c3_display, by norm_num [F0, lc]⟩

/-- C3 witness: the guarantees hold of the concrete emitted group. -/
theorem C3_line_breaking_witness :
    (∀ d ∈ ([⟨0, 5 / 2, lc "aaaa",
          ⟨16, lc "Georgia", lc "normal", lc "roman"⟩⟩,
        ⟨50, 5 / 2, lc "bbbbbb",
          ⟨16, lc "Georgia", lc "normal", lc "roman"⟩⟩] :
        List DrawTextD).dropLast,
      d.x + (F0.measure d.font d.text : ℚ) ≤ 100) ∧
    (∀ d, ([⟨0, 5 / 2, lc "aaaa",
          ⟨16, lc "Georgia", lc "normal", lc "roman"⟩⟩,
        ⟨50, 5 / 2, lc "bbbbbb",
          ⟨16, lc "Georgia", lc "normal", lc "roman"⟩⟩] :
        List DrawTextD).head? = some d → d.x = 0) :=
  C3_line_breaking F0 100 (NTree.text (lc "aaaa bbbbbb")) _
    (by rw [c3_display]; simp)
